import Mathlib

/-!
Verification of the geometry correspondence and color matching pipeline.

The definitions below are a shallow embedding of the precompute pipeline
(trimBottomRow, clampPositions, adjustVertexCount, reorderToNearest) and of
the color matching utilities (findClosestColorIndex and friends,
createDistanceMatrix, sortColorsByPairing).  JavaScript numbers are modelled
as exact rationals; the flat Float32 position arrays are modelled as lists of
3D points (one list entry per x, y, z triple).  The irrational square root
used inside the color distance formulas is abstracted as a function
parameter, since its exact value never matters for the combinatorial claims
proved here.  The external munkres-js assignment solver is not part of the
repository and is modelled from the spec.
-/

set_option linter.unusedVariables false

/-- A 3D point with rational coordinates, modelling one (x, y, z) triple of
the flat Float32 position arrays used by the precompute pipeline. -/
structure P3 where
  x : ℚ
  y : ℚ
  z : ℚ
deriving DecidableEq, Repr

/-- The zero point, modelling zero-initialized Float32Array slots. -/
def pzero : P3 := ⟨0, 0, 0⟩

/-- Model of trimBottomRow: computes the y range of the cloud, discards every
point whose y is at most minY plus one percent of the height, and falls back
to the untrimmed cloud when no point would survive.  The source operates on a
flat array with a length lower bound of 3, which is one point here. -/
def trimBottomRow (positions : List P3) : List P3 :=
  match positions with
  | [] => []
  | p :: rest =>
    let minY := (rest.map P3.y).foldl min p.y
    let maxY := (rest.map P3.y).foldl max p.y
    let height := maxY - minY
    let threshold := minY + height * (1 / 100)
    let kept := (p :: rest).filter (fun q => !decide (q.y ≤ threshold))
    if 1 ≤ kept.length then kept else p :: rest

/-- Model of the decimation loop inside clampPositions: starting at index i
with a budget of remaining output slots, push every stride-th point while the
index stays in range. -/
def clampLoop (positions : List P3) (stride : ℕ) : ℕ → ℕ → List P3
  | _, 0 => []
  | i, budget + 1 =>
    if i < positions.length then
      positions.getD i pzero :: clampLoop positions stride (i + stride) budget
    else []

/-- Model of clampPositions: returns the cloud unchanged when the vertex
count is within the cap, otherwise decimates with stride equal to the ceiling
of count over cap, keeping at most floor of count over stride vertices. -/
def clampPositions (positions : List P3) (maxVertices : ℕ) : List P3 :=
  let vertCount := positions.length
  if vertCount ≤ maxVertices then positions
  else
    let stride := (vertCount + maxVertices - 1) / maxVertices
    let keptVertices := vertCount / stride
    clampLoop positions stride 0 keptVertices

/-- Written from the words of the spec, for comparison with clampPositions:
keep every stride-th point of the input in original order, that is all points
at indices 0, stride, 2 * stride and so on below the length. -/
def specStridePoints (positions : List P3) (stride : ℕ) : List P3 :=
  (List.range ((positions.length + stride - 1) / stride)).map
    (fun k => positions.getD (k * stride) pzero)

/-- Model of adjustVertexCount: copy up to min of length and target count
points verbatim, then pad the remaining slots with the last copied point (or
the zero point when nothing was copied, matching the or-zero guard of the
source). -/
def adjustVertexCount (cloud : List P3) (finalCount : ℕ) : List P3 :=
  let copyCount := min cloud.length finalCount
  let lastP := cloud.getD (copyCount - 1) pzero
  cloud.take copyCount ++ List.replicate (finalCount - copyCount) lastP

/-- Context of one reorderToNearest run: the target cloud, the minimum corner
of the union bounding box, the grid cell size, and the common vertex count. -/
structure GridCtx where
  tgt : List P3
  minX : ℚ
  minY : ℚ
  minZ : ℚ
  cellSize : ℚ
  len : ℕ

/-- Integer grid cell coordinates, modelling the string bucket keys. -/
structure Cell where
  ix : ℤ
  iy : ℤ
  iz : ℤ
deriving DecidableEq, Repr

/-- Cell coordinates of a point, as computed by both the bucket insertion and
the queries of the source. -/
def cellOf (ctx : GridCtx) (p : P3) : Cell :=
  ⟨⌊(p.x - ctx.minX) / ctx.cellSize⌋,
   ⌊(p.y - ctx.minY) / ctx.cellSize⌋,
   ⌊(p.z - ctx.minZ) / ctx.cellSize⌋⟩

/-- Squared Euclidean distance from the query point to a target point. -/
def dist2 (q p : P3) : ℚ :=
  (p.x - q.x) ^ 2 + (p.y - q.y) ^ 2 + (p.z - q.z) ^ 2

/-- Bucket contents for one cell key: the still available target indices
whose point hashes to that cell, in ascending index order.  The source keeps
these lists in a mutable map and removes an index exactly when it marks it
unavailable, so the list for a key is always the available indices of that
cell in insertion order. -/
def bucketList (ctx : GridCtx) (avail : Finset ℕ) (key : Cell) : List ℕ :=
  (List.range ctx.len).filter
    (fun i => decide (i ∈ avail) && decide (cellOf ctx (ctx.tgt.getD i pzero) = key))

/-- Running minimum over a candidate index list, tracking the best index and
its squared distance.  A state of none models bestIdx minus one with an
infinite best distance, so the first candidate is always taken. -/
def foldBest (ctx : GridCtx) (q : P3) : List ℕ → Option (ℕ × ℚ) → Option (ℕ × ℚ)
  | [], best => best
  | idx :: rest, best =>
    let d2 := dist2 q (ctx.tgt.getD idx pzero)
    match best with
    | none => foldBest ctx q rest (some (idx, d2))
    | some (bi, bd) =>
      if d2 < bd then foldBest ctx q rest (some (idx, d2))
      else foldBest ctx q rest (some (bi, bd))

/-- Offsets minus r to r in ascending order, as the three nested loops of the
source iterate them. -/
def cellOffsets (r : ℕ) : List ℤ :=
  (List.range (2 * r + 1)).map (fun k => (k : ℤ) - (r : ℤ))

/-- All cells of the cube scan at radius r around a center cell, in the
iteration order of the source loops. -/
def ringCells (c : Cell) (r : ℕ) : List Cell :=
  (cellOffsets r).flatMap (fun dx =>
    (cellOffsets r).flatMap (fun dy =>
      (cellOffsets r).map (fun dz => ⟨c.ix + dx, c.iy + dy, c.iz + dz⟩)))

/-- One radius-r pass of the nearest query: fold the running minimum over all
available candidates of all cells of the cube at radius r. -/
def scanRing (ctx : GridCtx) (avail : Finset ℕ) (q : P3) (c : Cell) (r : ℕ) :
    Option (ℕ × ℚ) :=
  foldBest ctx q ((ringCells c r).flatMap (fun key => bucketList ctx avail key)) none

/-- The exhaustive linear scan over all still available target indices, used
when the capped ring search finds no candidate. -/
def fallbackScan (ctx : GridCtx) (avail : Finset ℕ) (q : P3) : Option (ℕ × ℚ) :=
  foldBest ctx q ((List.range ctx.len).filter (fun i => decide (i ∈ avail))) none

/-- Model of findNearest: scan radii 0, 1, 2 stopping at the first radius
that yields a candidate, then fall back to the linear scan; none models the
minus-one result of the source. -/
def findNearest (ctx : GridCtx) (avail : Finset ℕ) (q : P3) : Option ℕ :=
  let c := cellOf ctx q
  let ringRes :=
    match scanRing ctx avail q c 0 with
    | some b => some b
    | none =>
      match scanRing ctx avail q c 1 with
      | some b => some b
      | none => scanRing ctx avail q c 2
  match ringRes with
  | some b => some b.1
  | none =>
    match fallbackScan ctx avail q with
    | some b => some b.1
    | none => none

/-- Model of the main loop of reorderToNearest: for each reference point in
order, query the nearest available target index, record it, and mark it
consumed; a failed query records none and consumes nothing, matching the
continue of the source. -/
def assignAll (ctx : GridCtx) : List P3 → Finset ℕ → List (Option ℕ)
  | [], _ => []
  | q :: rest, avail =>
    match findNearest ctx avail q with
    | none => none :: assignAll ctx rest avail
    | some j => some j :: assignAll ctx rest (avail.erase j)

/-- Builds the grid context of reorderToNearest: union bounding box of both
clouds, cell size a twentieth of the largest box dimension (1 when the box is
degenerate), and the reference vertex count. -/
def mkCtx (ref tgt : List P3) : GridCtx :=
  match ref ++ tgt with
  | [] => ⟨tgt, 0, 0, 0, 1, ref.length⟩
  | a :: rest =>
    let minX := (rest.map P3.x).foldl min a.x
    let minY := (rest.map P3.y).foldl min a.y
    let minZ := (rest.map P3.z).foldl min a.z
    let maxX := (rest.map P3.x).foldl max a.x
    let maxY := (rest.map P3.y).foldl max a.y
    let maxZ := (rest.map P3.z).foldl max a.z
    let maxDim := max (maxX - minX) (max (maxY - minY) (maxZ - minZ))
    let cellSize := if 0 < maxDim then maxDim / 20 else 1
    ⟨tgt, minX, minY, minZ, cellSize, ref.length⟩

/-- The target index chosen for each reference index, in reference order. -/
def reorderAssignment (ref tgt : List P3) : List (Option ℕ) :=
  assignAll (mkCtx ref tgt) ref (Finset.range ref.length)

/-- The error message thrown by reorderToNearest on a length mismatch. -/
def reorderErrorMsg : String :=
  "reorderToNearest requires equal-length position arrays."

/-- Model of reorderToNearest: rejects mismatched lengths up front, otherwise
emits for each reference index the chosen target point, leaving the zero
point in the (unreachable) slots whose query failed. -/
def reorderToNearest (ref tgt : List P3) : Except String (List P3) :=
  if tgt.length ≠ ref.length then Except.error reorderErrorMsg
  else
    Except.ok ((reorderAssignment ref tgt).map
      (fun o => match o with
        | some j => tgt.getD j pzero
        | none => pzero))

/-- A Lab color with rational channels, as consumed by the nearest color
matchers; the query and the candidates are inputs here, not derived. -/
structure Lab where
  l : ℚ
  a : ℚ
  b : ℚ
deriving DecidableEq, Repr

/-- The zero Lab color, used as an out-of-range default. -/
def labZero : Lab := ⟨0, 0, 0⟩

/-- An RGB color with rational channels. -/
structure RGB where
  r : ℚ
  g : ℚ
  b : ℚ
deriving DecidableEq, Repr

/-- The zero RGB color, used as an out-of-range default. -/
def rgbZero : RGB := ⟨0, 0, 0⟩

/-- The exact value of Number.MAX_VALUE, the initial smallest distance of the
nearest color matchers. -/
def MAXV : ℚ := (2 ^ 53 - 1) * 2 ^ 971

/-- The full variant distance: square root of the sum of squared channel
differences, with the square root abstracted as the parameter s. -/
def fullDist (s : ℚ → ℚ) (q c : Lab) : ℚ :=
  s ((q.l - c.l) ^ 2 + (q.a - c.a) ^ 2 + (q.b - c.b) ^ 2)

/-- The chroma weighted variant distance: half the full distance plus twice
the square root of the squared a and b differences. -/
def abDist (s : ℚ → ℚ) (q c : Lab) : ℚ :=
  fullDist s q c * (1 / 2) + 2 * s ((q.a - c.a) ^ 2 + (q.b - c.b) ^ 2)

/-- The lightness weighted variant distance: half the full distance plus the
absolute lightness difference. -/
def lDist (s : ℚ → ℚ) (q c : Lab) : ℚ :=
  fullDist s q c * (1 / 2) + |q.l - c.l|

/-- The shared loop body of the three nearest color matchers: walk the
distance list with the running index, keeping the index of the last strict
improvement over the smallest distance so far. -/
def closestGo : List ℚ → ℕ → ℕ → ℚ → ℕ
  | [], _, ci, _ => ci
  | d :: rest, i, ci, sd =>
    if d < sd then closestGo rest (i + 1) i d
    else closestGo rest (i + 1) ci sd

/-- The loop of the nearest color matchers over a precomputed distance list,
starting with index 0 and Number.MAX_VALUE. -/
def findClosest (ds : List ℚ) : ℕ := closestGo ds 0 0 MAXV

/-- Model of findClosestColorIndex with the square root abstracted as s. -/
def findClosestColorIndex (s : ℚ → ℚ) (labColor : Lab) (paletteLab : List Lab) : ℕ :=
  findClosest (paletteLab.map (fullDist s labColor))

/-- Model of findClosestColorIndexAB with the square root abstracted as s. -/
def findClosestColorIndexAB (s : ℚ → ℚ) (labColor : Lab) (paletteLab : List Lab) : ℕ :=
  findClosest (paletteLab.map (abDist s labColor))

/-- Model of findClosestColorIndexL with the square root abstracted as s. -/
def findClosestColorIndexL (s : ℚ → ℚ) (labColor : Lab) (paletteLab : List Lab) : ℕ :=
  findClosest (paletteLab.map (lDist s labColor))

/-- Model of createDistanceMatrix, with the Lab color distance abstracted as
the parameter dist because the source value is an irrational square root of
transcendental Lab coordinates. -/
def createDistanceMatrix (dist : RGB → RGB → ℚ) (colors1 colors2 : List RGB) :
    List (List ℚ) :=
  colors1.map (fun c1 => colors2.map (fun c2 => dist c1 c2))

/-- All assignments of k distinct values below n, listed as the value lists
of the assignment on 0, 1, and so on up to k - 1. -/
def injLists : ℕ → ℕ → List (List ℕ)
  | 0, _ => [[]]
  | k + 1, n =>
    (List.range n).flatMap (fun j =>
      (injLists k n).filterMap (fun rest =>
        if j ∈ rest then none else some (j :: rest)))

/-- Total cost of assigning row i the column at position i of l, summed over
all positions of l. -/
def assignCost (D : List (List ℚ)) (l : List ℕ) : ℚ :=
  (((List.range l.length).zip l).map
    (fun p => (D.getD p.1 []).getD p.2 0)).sum

/-- Total cost of assigning column j the row at position j of g, summed over
all positions of g. -/
def assignCostT (D : List (List ℚ)) (g : List ℕ) : ℚ :=
  ((g.zip (List.range g.length)).map
    (fun p => (D.getD p.1 []).getD p.2 0)).sum

/-- First element of the list attaining the minimum of f, or none on the
empty list. -/
def pickMin (f : α → ℚ) : List α → Option α
  | [] => none
  | a :: rest =>
    match pickMin f rest with
    | none => some a
    | some b => if f b < f a then some b else some a

/-- The error message of the modelled solver on an empty cost matrix. -/
def munkresEmptyMsg : String :=
  "munkres called with an empty cost matrix."

/-- Modelled from the spec: the external munkres-js solver is not part of the
repository, so it is modelled from sections 4.3 and 7 of the spec.  Called
with an empty cost matrix it fails explicitly and immediately (section 7:
never silently coerced).  Otherwise it solves the rectangular assignment
problem, returning a minimum total cost one-to-one matching of size min of
the two dimensions, as row and column index pairs; with more rows than
columns the pair order is not fixed by the spec and the model emits them in
column order.  The brute force argmin here is a computable witness of the
contract of the spec, which is all the claims need. -/
def munkres (D : List (List ℚ)) : Except String (List (ℕ × ℕ)) :=
  if D = [] then Except.error munkresEmptyMsg
  else
    let m := D.length
    let n := (D.headD []).length
    if m ≤ n then
      match pickMin (assignCost D) (injLists m n) with
      | some l => Except.ok ((List.range m).zip l)
      | none => Except.ok []
    else
      match pickMin (assignCostT D) (injLists n m) with
      | some g => Except.ok (g.zip (List.range n))
      | none => Except.ok []

/-- Model of sortColorsByPairing: build the distance matrix, solve the
assignment, and read the chosen partner of each returned pair out of the
second palette; a solver failure propagates, as the uncaught exception does
in the source. -/
def sortColorsByPairing (dist : RGB → RGB → ℚ) (colors1 colors2 : List RGB) :
    Except String (List RGB) :=
  (munkres (createDistanceMatrix dist colors1 colors2)).map
    (fun results => results.map (fun res => colors2.getD res.2 rgbZero))

/-- The piecewise sRGB constants of the color converter, as exact reals. -/
noncomputable def t1 : ℝ := 6 / 29

/-- Three times the square of t1, the slope constant of the Lab linear
branch. -/
noncomputable def t2 : ℝ := 3 * t1 * t1

/-- The cube of t1, the branch threshold of the Lab nonlinearity. -/
noncomputable def t3 : ℝ := t1 * t1 * t1

/-- Model of rgb2lrgb over exact reals: undo the gamma encoding of one
channel. -/
noncomputable def rgb2lrgb (x : ℝ) : ℝ :=
  let x2 := x / 255
  if x2 ≤ 0.04045 then x2 / 12.92 else ((x2 + 0.055) / 1.055) ^ (2.4 : ℝ)

/-- Model of xyz2lab over exact reals: the cube root based Lab
nonlinearity. -/
noncomputable def xyz2lab (t : ℝ) : ℝ :=
  if t > t3 then t ^ ((1 : ℝ) / 3) else t / t2 + 4 / 29

/-- Model of lab2xyz over exact reals: the inverse of the Lab
nonlinearity. -/
noncomputable def lab2xyz (t : ℝ) : ℝ :=
  if t > t1 then t * t * t else t2 * (t - 4 / 29)

/-- A Lab color over exact reals, as produced by rgbToLab. -/
structure LabR where
  l : ℝ
  a : ℝ
  b : ℝ

/-- An RGB color over exact reals, as consumed by rgbToLab. -/
structure RGBR where
  r : ℝ
  g : ℝ
  b : ℝ

/-- Model of rgbToLab over exact reals: linearize the channels, combine them
into tristimulus values (with the gray shortcut of the source, which tests
the linearized channels for equality), and apply the Lab nonlinearity. -/
noncomputable def rgbToLab (color : RGBR) : LabR :=
  let r := rgb2lrgb color.r
  let g := rgb2lrgb color.g
  let b := rgb2lrgb color.b
  let y := xyz2lab (0.2225045 * r + 0.7168786 * g + 0.0606169 * b)
  let x :=
    if r = g ∧ g = b then y
    else xyz2lab ((0.4360747 * r + 0.3850649 * g + 0.1430804 * b) / 0.96422)
  let z :=
    if r = g ∧ g = b then y
    else xyz2lab ((0.0139322 * r + 0.0971045 * g + 0.7141733 * b) / 0.82521)
  ⟨116 * y - 16, 500 * (x - y), 200 * (y - z)⟩

/-- Model of lrgb2rgb over exact reals: re-encode one linear channel and
round to the nearest integer.  The or-zero guard of the source only
canonicalizes negative zero and NaN, which do not exist in the real model;
rounding of negative halves agrees with the JavaScript half-up rule. -/
noncomputable def lrgb2rgb (x : ℝ) : ℤ :=
  round (255 * (if x ≤ 0.0031308 then 12.92 * x
    else 1.055 * x ^ ((1 : ℝ) / 2.4) - 0.055))

/-- Model of labToRgb over exact reals: invert the Lab nonlinearity, apply
the inverse matrix, and re-encode each channel; the result triple holds the
rounded r, g, b channels. -/
noncomputable def labToRgb (lab : LabR) : ℤ × ℤ × ℤ :=
  let baseY := (lab.l + 16) / 116
  let x := 0.96422 * lab2xyz (baseY + lab.a / 500)
  let y := lab2xyz baseY
  let z := 0.82521 * lab2xyz (baseY - lab.b / 200)
  (lrgb2rgb (3.1338561 * x - 1.6168667 * y - 0.4906146 * z),
   lrgb2rgb (-0.9787684 * x + 1.9161415 * y + 0.033454 * z),
   lrgb2rgb (0.0719453 * x - 0.2289914 * y + 1.4052427 * z))

/-- The left fold of min over a list is a lower bound of the seed and of
every element. -/
lemma foldlMin_le (l : List ℚ) : ∀ (a x : ℚ), x ∈ a :: l → l.foldl min a ≤ x := by
  induction l with
  | nil =>
    intro a x hx
    simp only [List.mem_cons, List.not_mem_nil, or_false] at hx
    simp [hx]
  | cons b l ih =>
    intro a x hx
    simp only [List.mem_cons] at hx
    simp only [List.foldl_cons]
    rcases hx with hx | hx | hx
    · exact le_trans (ih (min a b) (min a b) (by simp)) (by simp [hx])
    · exact le_trans (ih (min a b) (min a b) (by simp)) (by simp [hx])
    · exact ih (min a b) x (by simp [hx])

/-- The left fold of min over a list is the seed or one of the elements. -/
lemma foldlMin_mem (l : List ℚ) : ∀ (a : ℚ), l.foldl min a ∈ a :: l := by
  induction l with
  | nil => intro a; simp
  | cons b l ih =>
    intro a
    have h := ih (min a b)
    simp only [List.mem_cons] at h ⊢
    simp only [List.foldl_cons]
    rcases h with h | h
    · rcases min_choice a b with hc | hc
      · left; rw [h, hc]
      · right; left; rw [h, hc]
    · right; right; exact h

/-- The left fold of max over a list is an upper bound of the seed and of
every element. -/
lemma foldlMax_ge (l : List ℚ) : ∀ (a x : ℚ), x ∈ a :: l → x ≤ l.foldl max a := by
  induction l with
  | nil =>
    intro a x hx
    simp only [List.mem_cons, List.not_mem_nil, or_false] at hx
    simp [hx]
  | cons b l ih =>
    intro a x hx
    simp only [List.mem_cons] at hx
    simp only [List.foldl_cons]
    rcases hx with hx | hx | hx
    · exact le_trans (by simp [hx]) (ih (max a b) (max a b) (by simp))
    · exact le_trans (by simp [hx]) (ih (max a b) (max a b) (by simp))
    · exact ih (max a b) x (by simp [hx])

/-- The left fold of max over a list is the seed or one of the elements. -/
lemma foldlMax_mem (l : List ℚ) : ∀ (a : ℚ), l.foldl max a ∈ a :: l := by
  induction l with
  | nil => intro a; simp
  | cons b l ih =>
    intro a
    have h := ih (max a b)
    simp only [List.mem_cons] at h ⊢
    simp only [List.foldl_cons]
    rcases h with h | h
    · rcases max_choice a b with hc | hc
      · left; rw [h, hc]
      · right; left; rw [h, hc]
    · right; right; exact h

/-- C7: the trim bottom step discards exactly the points whose height is at
most minY plus one percent of the y range, where minY and maxY are the
extremes of the y values of the cloud itself, and returns the cloud unchanged
when no point would survive. -/
theorem trimBottomRow_spec (positions : List P3) (h : positions ≠ []) :
    ∃ minY maxY : ℚ,
      (∀ q ∈ positions, minY ≤ q.y ∧ q.y ≤ maxY) ∧
      (∃ q ∈ positions, q.y = minY) ∧
      (∃ q ∈ positions, q.y = maxY) ∧
      trimBottomRow positions =
        (if 1 ≤ (positions.filter
            (fun q => !decide (q.y ≤ minY + (maxY - minY) * (1 / 100)))).length
         then positions.filter
            (fun q => !decide (q.y ≤ minY + (maxY - minY) * (1 / 100)))
         else positions) := by
  match positions, h with
  | p :: rest, _ =>
    refine ⟨(rest.map P3.y).foldl min p.y, (rest.map P3.y).foldl max p.y, ?_, ?_, ?_, ?_⟩
    · intro q hq
      have hy : q.y ∈ p.y :: rest.map P3.y := by
        rcases List.mem_cons.mp hq with h1 | h1
        · simp [h1]
        · exact List.mem_cons_of_mem _ (List.mem_map_of_mem _ h1)
      exact ⟨foldlMin_le _ _ _ hy, foldlMax_ge _ _ _ hy⟩
    · have hm := foldlMin_mem (rest.map P3.y) p.y
      rcases List.mem_cons.mp hm with h1 | h1
      · exact ⟨p, by simp, h1.symm⟩
      · rcases List.mem_map.mp h1 with ⟨q, hq, hqy⟩
        exact ⟨q, List.mem_cons_of_mem _ hq, hqy⟩
    · have hm := foldlMax_mem (rest.map P3.y) p.y
      rcases List.mem_cons.mp hm with h1 | h1
      · exact ⟨p, by simp, h1.symm⟩
      · rcases List.mem_map.mp h1 with ⟨q, hq, hqy⟩
        exact ⟨q, List.mem_cons_of_mem _ hq, hqy⟩
    · rfl

/-- Witness for C7 at a concrete three point cloud. -/
theorem trimBottomRow_spec_witness :
    ([⟨0, 0, 0⟩, ⟨0, 5, 0⟩, ⟨0, 10, 0⟩] : List P3) ≠ [] ∧
    (∃ minY maxY : ℚ,
      (∀ q ∈ ([⟨0, 0, 0⟩, ⟨0, 5, 0⟩, ⟨0, 10, 0⟩] : List P3), minY ≤ q.y ∧ q.y ≤ maxY) ∧
      (∃ q ∈ ([⟨0, 0, 0⟩, ⟨0, 5, 0⟩, ⟨0, 10, 0⟩] : List P3), q.y = minY) ∧
      (∃ q ∈ ([⟨0, 0, 0⟩, ⟨0, 5, 0⟩, ⟨0, 10, 0⟩] : List P3), q.y = maxY) ∧
      trimBottomRow [⟨0, 0, 0⟩, ⟨0, 5, 0⟩, ⟨0, 10, 0⟩] =
        (if 1 ≤ (([⟨0, 0, 0⟩, ⟨0, 5, 0⟩, ⟨0, 10, 0⟩] : List P3).filter
            (fun q => !decide (q.y ≤ minY + (maxY - minY) * (1 / 100)))).length
         then ([⟨0, 0, 0⟩, ⟨0, 5, 0⟩, ⟨0, 10, 0⟩] : List P3).filter
            (fun q => !decide (q.y ≤ minY + (maxY - minY) * (1 / 100)))
         else [⟨0, 0, 0⟩, ⟨0, 5, 0⟩, ⟨0, 10, 0⟩])) :=
  ⟨by decide, trimBottomRow_spec [⟨0, 0, 0⟩, ⟨0, 5, 0⟩, ⟨0, 10, 0⟩] (by decide)⟩

/-- C5: adjustVertexCount returns exactly targetN points, the first
min(L, targetN) of them verbatim from the input, and every further slot
holds the literal final point of the input. -/
theorem adjustVertexCount_spec (cloud : List P3) (targetN : ℕ) (h : cloud ≠ []) :
    (adjustVertexCount cloud targetN).length = targetN ∧
    (∀ i, i < min cloud.length targetN →
      (adjustVertexCount cloud targetN).getD i pzero = cloud.getD i pzero) ∧
    (∀ i, min cloud.length targetN ≤ i → i < targetN →
      (adjustVertexCount cloud targetN).getD i pzero = cloud.getLast h) := by
  have hlen : cloud.length ≠ 0 := fun h0 => h (List.eq_nil_of_length_eq_zero h0)
  unfold adjustVertexCount
  set c := min cloud.length targetN with hc
  have hcle : c ≤ cloud.length := min_le_left _ _
  have hct : c ≤ targetN := min_le_right _ _
  have htake : (cloud.take c).length = c := by
    simp [List.length_take, Nat.min_eq_left hcle]
  refine ⟨?_, ?_, ?_⟩
  · simp only [List.length_append, htake, List.length_replicate]
    omega
  · intro i hi
    rw [List.getD_append _ _ _ _ (by omega)]
    have h1 : i < cloud.length := lt_of_lt_of_le hi hcle
    rw [List.getD_eq_getElem _ _ (by omega), List.getD_eq_getElem _ _ h1]
    simp [List.getElem_take]
  · intro i hi hit
    have hclen : c = cloud.length := by omega
    rw [List.getD_append_right _ _ _ _ (by omega)]
    have hrep : i - (cloud.take c).length < targetN - c := by omega
    rw [List.getD_eq_getElem _ _ (by simpa using hrep)]
    simp only [List.getElem_replicate]
    have h1 : c - 1 < cloud.length := by omega
    rw [List.getD_eq_getElem _ _ h1, List.getLast_eq_getElem]
    congr 1
    omega

/-- Witness for C5 at a concrete two point cloud padded to four points. -/
theorem adjustVertexCount_spec_witness :
    ([⟨1, 2, 3⟩, ⟨4, 5, 6⟩] : List P3) ≠ [] ∧
    ((adjustVertexCount [⟨1, 2, 3⟩, ⟨4, 5, 6⟩] 4).length = 4 ∧
    (∀ i, i < min ([⟨1, 2, 3⟩, ⟨4, 5, 6⟩] : List P3).length 4 →
      (adjustVertexCount [⟨1, 2, 3⟩, ⟨4, 5, 6⟩] 4).getD i pzero =
        ([⟨1, 2, 3⟩, ⟨4, 5, 6⟩] : List P3).getD i pzero) ∧
    (∀ i, min ([⟨1, 2, 3⟩, ⟨4, 5, 6⟩] : List P3).length 4 ≤ i → i < 4 →
      (adjustVertexCount [⟨1, 2, 3⟩, ⟨4, 5, 6⟩] 4).getD i pzero =
        ([⟨1, 2, 3⟩, ⟨4, 5, 6⟩] : List P3).getLast (by decide))) :=
  ⟨by decide, adjustVertexCount_spec [⟨1, 2, 3⟩, ⟨4, 5, 6⟩] 4 (by decide)⟩

/-- The decimation loop pushes exactly the points at indices i, i + stride,
and so on, one per budget slot, as long as every such index is in range. -/
lemma clampLoop_eq_map (positions : List P3) (stride : ℕ) :
    ∀ (budget i : ℕ), (∀ k, k < budget → i + k * stride < positions.length) →
      clampLoop positions stride i budget =
        (List.range budget).map (fun k => positions.getD (i + k * stride) pzero) := by
  intro budget
  induction budget with
  | zero => intro i _; simp [clampLoop]
  | succ b ih =>
    intro i hk
    have hi : i < positions.length := by
      have := hk 0 (Nat.succ_pos b)
      simpa using this
    rw [clampLoop, if_pos hi]
    rw [ih (i + stride) (fun k hkb => by
      have := hk (k + 1) (by omega)
      calc i + stride + k * stride = i + (k + 1) * stride := by ring
        _ < positions.length := this)]
    rw [List.range_succ_eq_map, List.map_cons, List.map_map]
    refine congrArg₂ _ (by simp) ?_
    refine List.map_congr_left (fun k _ => ?_)
    simp only [Function.comp_apply]
    congr 1
    simp [Nat.succ_eq_add_one]
    ring

/-- C6 (amended): at or below the cap the cloud is unchanged; above the cap,
with stride the ceiling of count over cap, the output consists of the first
floor(count / stride) points among those at indices 0, stride, 2 stride, and
so on, in original order.  When stride does not divide the count this keeps
strictly fewer than all stride-th points. -/
theorem clampPositions_spec (positions : List P3) (maxV : ℕ) (h : 0 < maxV) :
    (positions.length ≤ maxV → clampPositions positions maxV = positions) ∧
    (maxV < positions.length →
      clampPositions positions maxV =
        (List.range (positions.length / ((positions.length + maxV - 1) / maxV))).map
          (fun k => positions.getD (k * ((positions.length + maxV - 1) / maxV)) pzero)) := by
  constructor
  · intro hle
    unfold clampPositions
    rw [if_pos hle]
  · intro hgt
    unfold clampPositions
    rw [if_neg (by omega)]
    set stride := (positions.length + maxV - 1) / maxV with hstride
    have hs : 0 < stride := by
      rw [hstride]
      have : maxV ≤ positions.length + maxV - 1 := by omega
      exact Nat.one_le_div_iff h |>.mpr this
    have hbound : ∀ k, k < positions.length / stride →
        0 + k * stride < positions.length := by
      intro k hklt
      have h1 : k + 1 ≤ positions.length / stride := hklt
      have h2 : (k + 1) * stride ≤ (positions.length / stride) * stride :=
        Nat.mul_le_mul_right _ h1
      have h3 : (positions.length / stride) * stride ≤ positions.length :=
        Nat.div_mul_le_self _ _
      have h4 : k * stride + stride ≤ positions.length := by
        calc k * stride + stride = (k + 1) * stride := by ring
          _ ≤ _ := le_trans h2 h3
      omega
    rw [clampLoop_eq_map positions stride _ 0 hbound]
    refine List.map_congr_left (fun k _ => ?_)
    congr 1
    ring

/-- Witness for C6 at a concrete five point cloud with a cap of two. -/
theorem clampPositions_spec_witness :
    0 < 2 ∧
    ((([⟨0,0,0⟩, ⟨1,0,0⟩, ⟨2,0,0⟩, ⟨3,0,0⟩, ⟨4,0,0⟩] : List P3).length ≤ 2 →
      clampPositions [⟨0,0,0⟩, ⟨1,0,0⟩, ⟨2,0,0⟩, ⟨3,0,0⟩, ⟨4,0,0⟩] 2 =
        [⟨0,0,0⟩, ⟨1,0,0⟩, ⟨2,0,0⟩, ⟨3,0,0⟩, ⟨4,0,0⟩]) ∧
    (2 < ([⟨0,0,0⟩, ⟨1,0,0⟩, ⟨2,0,0⟩, ⟨3,0,0⟩, ⟨4,0,0⟩] : List P3).length →
      clampPositions [⟨0,0,0⟩, ⟨1,0,0⟩, ⟨2,0,0⟩, ⟨3,0,0⟩, ⟨4,0,0⟩] 2 =
        (List.range (([⟨0,0,0⟩, ⟨1,0,0⟩, ⟨2,0,0⟩, ⟨3,0,0⟩, ⟨4,0,0⟩] : List P3).length /
            ((([⟨0,0,0⟩, ⟨1,0,0⟩, ⟨2,0,0⟩, ⟨3,0,0⟩, ⟨4,0,0⟩] : List P3).length + 2 - 1) / 2))).map
          (fun k => ([⟨0,0,0⟩, ⟨1,0,0⟩, ⟨2,0,0⟩, ⟨3,0,0⟩, ⟨4,0,0⟩] : List P3).getD
            (k * ((([⟨0,0,0⟩, ⟨1,0,0⟩, ⟨2,0,0⟩, ⟨3,0,0⟩, ⟨4,0,0⟩] : List P3).length + 2 - 1) / 2))
            pzero))) :=
  ⟨by decide, clampPositions_spec [⟨0,0,0⟩, ⟨1,0,0⟩, ⟨2,0,0⟩, ⟨3,0,0⟩, ⟨4,0,0⟩] 2 (by decide)⟩

/-- Counterexample for C6 as stated: for a five point cloud and a cap of two,
the stride is the ceiling of five halves, namely three, yet the output is not
the list of every third point (it keeps only the first of the two stride-th
points, because the kept count is floored). -/
theorem clampPositions_cex :
    clampPositions [⟨0,0,0⟩, ⟨1,0,0⟩, ⟨2,0,0⟩, ⟨3,0,0⟩, ⟨4,0,0⟩] 2 ≠
      specStridePoints [⟨0,0,0⟩, ⟨1,0,0⟩, ⟨2,0,0⟩, ⟨3,0,0⟩, ⟨4,0,0⟩] ((5 + 2 - 1) / 2) := by
  decide

/-- C8: on mismatched reference and target lengths, reorderToNearest fails
explicitly with its length error before any matching work. -/
theorem reorderToNearest_mismatch (ref tgt : List P3) (h : tgt.length ≠ ref.length) :
    reorderToNearest ref tgt = Except.error reorderErrorMsg := by
  unfold reorderToNearest
  rw [if_pos h]

/-- Witness for C8 at a concrete mismatched pair. -/
theorem reorderToNearest_mismatch_witness :
    ([] : List P3).length ≠ [pzero].length ∧
    reorderToNearest [pzero] [] = Except.error reorderErrorMsg :=
  ⟨by decide, reorderToNearest_mismatch [pzero] [] (by decide)⟩

/-- C10: each of the three nearest color matchers returns index 0 on an empty
candidate list, although no candidate exists at that index. -/
theorem findClosest_empty_palette (s : ℚ → ℚ) (q : Lab) :
    findClosestColorIndex s q [] = 0 ∧ findClosestColorIndexAB s q [] = 0 ∧
      findClosestColorIndexL s q [] = 0 :=
  ⟨rfl, rfl, rfl⟩

/-- If no element beats the running smallest distance, the running index is
returned unchanged. -/
lemma closestGo_all_ge (ds : List ℚ) :
    ∀ (i ci : ℕ) (sd : ℚ), (∀ d ∈ ds, sd ≤ d) → closestGo ds i ci sd = ci := by
  induction ds with
  | nil => intro i ci sd _; rfl
  | cons d rest ih =>
    intro i ci sd hall
    have hd : sd ≤ d := hall d (by simp)
    rw [closestGo, if_neg (not_lt.mpr hd)]
    exact ih (i + 1) ci sd (fun e he => hall e (by simp [he]))

/-- If some element beats the running smallest distance, the loop returns the
offset of the first element attaining the minimum of the list among those
below the running smallest distance: that element is a strict improvement, is
a lower bound of the whole list, and strictly undercuts every earlier
element. -/
lemma closestGo_found (ds : List ℚ) :
    ∀ (i ci : ℕ) (sd : ℚ), (∃ d ∈ ds, d < sd) →
      ∃ k, k < ds.length ∧ closestGo ds i ci sd = i + k ∧ ds.getD k 0 < sd ∧
        (∀ t, t < ds.length → ds.getD k 0 ≤ ds.getD t 0) ∧
        (∀ t, t < k → ds.getD k 0 < ds.getD t 0) := by
  induction ds with
  | nil => intro i ci sd hex; simp at hex
  | cons d rest ih =>
    intro i ci sd hex
    by_cases hd : d < sd
    · rw [closestGo, if_pos hd]
      by_cases hex2 : ∃ e ∈ rest, e < d
      · obtain ⟨k', hk'len, heq, hlt, hmin, hstrict⟩ := ih (i + 1) i d hex2
        refine ⟨k' + 1, by simp; omega, by rw [heq]; omega, ?_, ?_, ?_⟩
        · simpa using lt_trans hlt hd
        · intro t ht
          match t with
          | 0 => simpa using le_of_lt hlt
          | t' + 1 =>
            simp only [List.getD_cons_succ]
            exact hmin t' (by simpa using ht)
        · intro t ht
          match t with
          | 0 => simpa using hlt
          | t' + 1 =>
            simp only [List.getD_cons_succ]
            exact hstrict t' (by omega)
      · push_neg at hex2
        rw [closestGo_all_ge rest (i + 1) i d hex2]
        refine ⟨0, by simp, by omega, by simpa using hd, ?_, by omega⟩
        intro t ht
        match t with
        | 0 => simp
        | t' + 1 =>
          simp only [List.getD_cons_zero, List.getD_cons_succ]
          have ht' : t' < rest.length := by simpa using ht
          rw [List.getD_eq_getElem _ _ ht']
          exact hex2 _ (List.getElem_mem ht')
    · rw [closestGo, if_neg hd]
      have hex' : ∃ e ∈ rest, e < sd := by
        obtain ⟨e, he, helt⟩ := hex
        rcases List.mem_cons.mp he with rfl | hmem
        · exact absurd helt hd
        · exact ⟨e, hmem, helt⟩
      obtain ⟨k', hk'len, heq, hlt, hmin, hstrict⟩ := ih (i + 1) ci sd hex'
      have hsd : sd ≤ d := not_lt.mp hd
      refine ⟨k' + 1, by simp; omega, by rw [heq]; omega, by simpa using hlt, ?_, ?_⟩
      · intro t ht
        match t with
        | 0 =>
          simp only [List.getD_cons_succ, List.getD_cons_zero]
          exact le_of_lt (lt_of_lt_of_le hlt hsd)
        | t' + 1 =>
          simp only [List.getD_cons_succ]
          exact hmin t' (by simpa using ht)
      · intro t ht
        match t with
        | 0 =>
          simp only [List.getD_cons_succ, List.getD_cons_zero]
          exact lt_of_lt_of_le hlt hsd
        | t' + 1 =>
          simp only [List.getD_cons_succ]
          exact hstrict t' (by omega)

/-- Reading a mapped distance list at an in-range position gives the distance
of the palette entry at that position. -/
lemma map_getD_dist (f : Lab → ℚ) (palette : List Lab) (k : ℕ)
    (hk : k < palette.length) :
    (palette.map f).getD k 0 = f (palette.getD k labZero) := by
  rw [List.getD_eq_getElem _ _ (by simpa using hk), List.getD_eq_getElem _ _ hk]
  simp

/-- The shared matcher loop, run over a mapped distance list on a nonempty
palette with all distances below Number.MAX_VALUE, lands on the first
palette position attaining the minimum distance. -/
lemma findClosest_least (f : Lab → ℚ) (palette : List Lab) (hne : palette ≠ [])
    (hb : ∀ c ∈ palette, f c < MAXV) :
    findClosest (palette.map f) < palette.length ∧
    (∀ t, t < palette.length →
      f (palette.getD (findClosest (palette.map f)) labZero) ≤
        f (palette.getD t labZero)) ∧
    (∀ t, t < findClosest (palette.map f) →
      f (palette.getD (findClosest (palette.map f)) labZero) <
        f (palette.getD t labZero)) := by
  have hex : ∃ d ∈ palette.map f, d < MAXV := by
    match palette, hne with
    | c :: rest, _ => exact ⟨f c, by simp, hb c (by simp)⟩
  obtain ⟨k, hklen, heq, hlt, hmin, hstrict⟩ :=
    closestGo_found (palette.map f) 0 0 MAXV hex
  have heq' : findClosest (palette.map f) = k := by
    simpa [findClosest] using heq
  have hklen' : k < palette.length := by simpa using hklen
  rw [heq']
  refine ⟨hklen', ?_, ?_⟩
  · intro t ht
    have := hmin t (by simpa using ht)
    rwa [map_getD_dist f palette k hklen', map_getD_dist f palette t ht] at this
  · intro t ht
    have := hstrict t ht
    rwa [map_getD_dist f palette k hklen',
      map_getD_dist f palette t (lt_trans ht hklen')] at this

/-- C9: on a nonempty candidate list whose variant weighted distances stay
below Number.MAX_VALUE (always true for Lab colors of the data model), each
of the three matchers returns the smallest index attaining the minimum
distance: the returned index attains the minimum and every earlier index has
a strictly larger distance, so an equal distance never re-assigns. -/
theorem findClosestColorIndex_first_min (s : ℚ → ℚ) (q : Lab) (palette : List Lab)
    (hne : palette ≠ [])
    (hF : ∀ c ∈ palette, fullDist s q c < MAXV)
    (hAB : ∀ c ∈ palette, abDist s q c < MAXV)
    (hL : ∀ c ∈ palette, lDist s q c < MAXV) :
    (findClosestColorIndex s q palette < palette.length ∧
      (∀ t, t < palette.length →
        fullDist s q (palette.getD (findClosestColorIndex s q palette) labZero) ≤
          fullDist s q (palette.getD t labZero)) ∧
      (∀ t, t < findClosestColorIndex s q palette →
        fullDist s q (palette.getD (findClosestColorIndex s q palette) labZero) <
          fullDist s q (palette.getD t labZero))) ∧
    (findClosestColorIndexAB s q palette < palette.length ∧
      (∀ t, t < palette.length →
        abDist s q (palette.getD (findClosestColorIndexAB s q palette) labZero) ≤
          abDist s q (palette.getD t labZero)) ∧
      (∀ t, t < findClosestColorIndexAB s q palette →
        abDist s q (palette.getD (findClosestColorIndexAB s q palette) labZero) <
          abDist s q (palette.getD t labZero))) ∧
    (findClosestColorIndexL s q palette < palette.length ∧
      (∀ t, t < palette.length →
        lDist s q (palette.getD (findClosestColorIndexL s q palette) labZero) ≤
          lDist s q (palette.getD t labZero)) ∧
      (∀ t, t < findClosestColorIndexL s q palette →
        lDist s q (palette.getD (findClosestColorIndexL s q palette) labZero) <
          lDist s q (palette.getD t labZero))) :=
  ⟨findClosest_least (fullDist s q) palette hne hF,
   findClosest_least (abDist s q) palette hne hAB,
   findClosest_least (lDist s q) palette hne hL⟩

/-- Witness for C9: identity stands in for the square root, the query equals
both candidates, so both attain the minimum distance and index 0 is kept. -/
theorem findClosestColorIndex_first_min_witness :
    (([⟨0, 0, 0⟩, ⟨0, 0, 0⟩] : List Lab) ≠ [] ∧
     (∀ c ∈ ([⟨0, 0, 0⟩, ⟨0, 0, 0⟩] : List Lab), fullDist id ⟨0, 0, 0⟩ c < MAXV) ∧
     (∀ c ∈ ([⟨0, 0, 0⟩, ⟨0, 0, 0⟩] : List Lab), abDist id ⟨0, 0, 0⟩ c < MAXV) ∧
     (∀ c ∈ ([⟨0, 0, 0⟩, ⟨0, 0, 0⟩] : List Lab), lDist id ⟨0, 0, 0⟩ c < MAXV)) ∧
    ((findClosestColorIndex id ⟨0, 0, 0⟩ [⟨0, 0, 0⟩, ⟨0, 0, 0⟩] <
        ([⟨0, 0, 0⟩, ⟨0, 0, 0⟩] : List Lab).length ∧
      (∀ t, t < ([⟨0, 0, 0⟩, ⟨0, 0, 0⟩] : List Lab).length →
        fullDist id ⟨0, 0, 0⟩ (([⟨0, 0, 0⟩, ⟨0, 0, 0⟩] : List Lab).getD
            (findClosestColorIndex id ⟨0, 0, 0⟩ [⟨0, 0, 0⟩, ⟨0, 0, 0⟩]) labZero) ≤
          fullDist id ⟨0, 0, 0⟩ (([⟨0, 0, 0⟩, ⟨0, 0, 0⟩] : List Lab).getD t labZero)) ∧
      (∀ t, t < findClosestColorIndex id ⟨0, 0, 0⟩ [⟨0, 0, 0⟩, ⟨0, 0, 0⟩] →
        fullDist id ⟨0, 0, 0⟩ (([⟨0, 0, 0⟩, ⟨0, 0, 0⟩] : List Lab).getD
            (findClosestColorIndex id ⟨0, 0, 0⟩ [⟨0, 0, 0⟩, ⟨0, 0, 0⟩]) labZero) <
          fullDist id ⟨0, 0, 0⟩ (([⟨0, 0, 0⟩, ⟨0, 0, 0⟩] : List Lab).getD t labZero))) ∧
     (findClosestColorIndexAB id ⟨0, 0, 0⟩ [⟨0, 0, 0⟩, ⟨0, 0, 0⟩] <
        ([⟨0, 0, 0⟩, ⟨0, 0, 0⟩] : List Lab).length ∧
      (∀ t, t < ([⟨0, 0, 0⟩, ⟨0, 0, 0⟩] : List Lab).length →
        abDist id ⟨0, 0, 0⟩ (([⟨0, 0, 0⟩, ⟨0, 0, 0⟩] : List Lab).getD
            (findClosestColorIndexAB id ⟨0, 0, 0⟩ [⟨0, 0, 0⟩, ⟨0, 0, 0⟩]) labZero) ≤
          abDist id ⟨0, 0, 0⟩ (([⟨0, 0, 0⟩, ⟨0, 0, 0⟩] : List Lab).getD t labZero)) ∧
      (∀ t, t < findClosestColorIndexAB id ⟨0, 0, 0⟩ [⟨0, 0, 0⟩, ⟨0, 0, 0⟩] →
        abDist id ⟨0, 0, 0⟩ (([⟨0, 0, 0⟩, ⟨0, 0, 0⟩] : List Lab).getD
            (findClosestColorIndexAB id ⟨0, 0, 0⟩ [⟨0, 0, 0⟩, ⟨0, 0, 0⟩]) labZero) <
          abDist id ⟨0, 0, 0⟩ (([⟨0, 0, 0⟩, ⟨0, 0, 0⟩] : List Lab).getD t labZero))) ∧
     (findClosestColorIndexL id ⟨0, 0, 0⟩ [⟨0, 0, 0⟩, ⟨0, 0, 0⟩] <
        ([⟨0, 0, 0⟩, ⟨0, 0, 0⟩] : List Lab).length ∧
      (∀ t, t < ([⟨0, 0, 0⟩, ⟨0, 0, 0⟩] : List Lab).length →
        lDist id ⟨0, 0, 0⟩ (([⟨0, 0, 0⟩, ⟨0, 0, 0⟩] : List Lab).getD
            (findClosestColorIndexL id ⟨0, 0, 0⟩ [⟨0, 0, 0⟩, ⟨0, 0, 0⟩]) labZero) ≤
          lDist id ⟨0, 0, 0⟩ (([⟨0, 0, 0⟩, ⟨0, 0, 0⟩] : List Lab).getD t labZero)) ∧
      (∀ t, t < findClosestColorIndexL id ⟨0, 0, 0⟩ [⟨0, 0, 0⟩, ⟨0, 0, 0⟩] →
        lDist id ⟨0, 0, 0⟩ (([⟨0, 0, 0⟩, ⟨0, 0, 0⟩] : List Lab).getD
            (findClosestColorIndexL id ⟨0, 0, 0⟩ [⟨0, 0, 0⟩, ⟨0, 0, 0⟩]) labZero) <
          lDist id ⟨0, 0, 0⟩ (([⟨0, 0, 0⟩, ⟨0, 0, 0⟩] : List Lab).getD t labZero)))) :=
  ⟨⟨by decide,
    by intro c hc; fin_cases hc <;> norm_num [fullDist, MAXV],
    by intro c hc; fin_cases hc <;> norm_num [abDist, fullDist, MAXV],
    by intro c hc; fin_cases hc <;> norm_num [lDist, fullDist, MAXV]⟩,
   findClosestColorIndex_first_min id ⟨0, 0, 0⟩ [⟨0, 0, 0⟩, ⟨0, 0, 0⟩]
     (by decide)
     (by intro c hc; fin_cases hc <;> norm_num [fullDist, MAXV])
     (by intro c hc; fin_cases hc <;> norm_num [abDist, fullDist, MAXV])
     (by intro c hc; fin_cases hc <;> norm_num [lDist, fullDist, MAXV])⟩

/-- Squared distance to oneself is zero. -/
lemma dist2_self (q : P3) : dist2 q q = 0 := by simp [dist2]

/-- Squared distances are nonnegative. -/
lemma dist2_nonneg (q p : P3) : 0 ≤ dist2 q p := by
  unfold dist2
  positivity

/-- A zero squared distance forces the two points to coincide. -/
lemma dist2_eq_zero (q p : P3) (h : dist2 q p = 0) : p = q := by
  unfold dist2 at h
  have h1 : (p.x - q.x) ^ 2 = 0 := by
    nlinarith [sq_nonneg (p.x - q.x), sq_nonneg (p.y - q.y), sq_nonneg (p.z - q.z)]
  have h2 : (p.y - q.y) ^ 2 = 0 := by
    nlinarith [sq_nonneg (p.x - q.x), sq_nonneg (p.y - q.y), sq_nonneg (p.z - q.z)]
  have h3 : (p.z - q.z) ^ 2 = 0 := by
    nlinarith [sq_nonneg (p.x - q.x), sq_nonneg (p.y - q.y), sq_nonneg (p.z - q.z)]
  have hx : p.x = q.x := sub_eq_zero.mp (sq_eq_zero_iff.mp h1)
  have hy : p.y = q.y := sub_eq_zero.mp (sq_eq_zero_iff.mp h2)
  have hz : p.z = q.z := sub_eq_zero.mp (sq_eq_zero_iff.mp h3)
  cases p
  cases q
  simp only [P3.mk.injEq]
  exact ⟨hx, hy, hz⟩

/-- Running minimum invariant: starting from a recorded best pair, the fold
returns a pair whose distance does not exceed the starting distance, which is
either the starting pair or a scanned candidate with its own distance, and
which is a lower bound of the distances of all scanned candidates. -/
lemma foldBest_spec (ctx : GridCtx) (q : P3) :
    ∀ (L : List ℕ) (bi : ℕ) (bd : ℚ),
      ∃ j d, foldBest ctx q L (some (bi, bd)) = some (j, d) ∧ d ≤ bd ∧
        ((j = bi ∧ d = bd) ∨ (j ∈ L ∧ d = dist2 q (ctx.tgt.getD j pzero))) ∧
        ∀ k ∈ L, d ≤ dist2 q (ctx.tgt.getD k pzero) := by
  intro L
  induction L with
  | nil =>
    intro bi bd
    exact ⟨bi, bd, rfl, le_refl _, Or.inl ⟨rfl, rfl⟩, by simp⟩
  | cons idx rest ih =>
    intro bi bd
    by_cases hlt : dist2 q (ctx.tgt.getD idx pzero) < bd
    · rw [foldBest]
      simp only [if_pos hlt]
      obtain ⟨j, d, heq, hle, hor, hall⟩ := ih idx (dist2 q (ctx.tgt.getD idx pzero))
      refine ⟨j, d, heq, le_of_lt (lt_of_le_of_lt hle hlt), ?_, ?_⟩
      · rcases hor with ⟨hj, hd⟩ | ⟨hmem, hd⟩
        · exact Or.inr ⟨by simp [hj], by rw [hj, hd]⟩
        · exact Or.inr ⟨List.mem_cons_of_mem _ hmem, hd⟩
      · intro k hk
        rcases List.mem_cons.mp hk with rfl | hk'
        · exact hle
        · exact hall k hk'
    · rw [foldBest]
      simp only [if_neg hlt]
      obtain ⟨j, d, heq, hle, hor, hall⟩ := ih bi bd
      refine ⟨j, d, heq, hle, ?_, ?_⟩
      · rcases hor with hl | ⟨hmem, hd⟩
        · exact Or.inl hl
        · exact Or.inr ⟨List.mem_cons_of_mem _ hmem, hd⟩
      · intro k hk
        rcases List.mem_cons.mp hk with rfl | hk'
        · exact le_trans hle (not_lt.mp hlt)
        · exact hall k hk'

/-- The fold started with no candidate yet, on a nonempty candidate list,
yields a scanned candidate attaining the minimum distance over the list. -/
lemma foldBest_none_spec (ctx : GridCtx) (q : P3) (L : List ℕ) (h : L ≠ []) :
    ∃ j d, foldBest ctx q L none = some (j, d) ∧ j ∈ L ∧
      d = dist2 q (ctx.tgt.getD j pzero) ∧
      ∀ k ∈ L, d ≤ dist2 q (ctx.tgt.getD k pzero) := by
  match L, h with
  | idx :: rest, _ =>
    obtain ⟨j, d, heq, hle, hor, hall⟩ :=
      foldBest_spec ctx q rest idx (dist2 q (ctx.tgt.getD idx pzero))
    have hstep : foldBest ctx q (idx :: rest) none = some (j, d) := by
      rw [foldBest]
      exact heq
    refine ⟨j, d, hstep, ?_, ?_, ?_⟩
    · rcases hor with ⟨hj, _⟩ | ⟨hmem, _⟩
      · simp [hj]
      · exact List.mem_cons_of_mem _ hmem
    · rcases hor with ⟨hj, hd⟩ | ⟨_, hd⟩
      · rw [hd, hj]
      · exact hd
    · intro k hk
      rcases List.mem_cons.mp hk with rfl | hk'
      · exact hle
      · exact hall k hk'

/-- A fold from no candidate that produced a pair scanned its index from the
candidate list, with its own distance. -/
lemma foldBest_none_mem (ctx : GridCtx) (q : P3) (L : List ℕ) (j : ℕ) (d : ℚ)
    (h : foldBest ctx q L none = some (j, d)) :
    j ∈ L ∧ d = dist2 q (ctx.tgt.getD j pzero) := by
  cases L with
  | nil => simp [foldBest] at h
  | cons idx rest =>
    obtain ⟨j', d', heq, hmem, hd, _⟩ :=
      foldBest_none_spec ctx q (idx :: rest) (by simp)
    rw [heq] at h
    have hpair : (j', d') = (j, d) := Option.some.inj h
    obtain ⟨rfl, rfl⟩ : j' = j ∧ d' = d :=
      ⟨congrArg Prod.fst hpair, congrArg Prod.snd hpair⟩
    exact ⟨hmem, hd⟩

/-- A candidate produced by a ring scan is an available index below the
vertex count. -/
lemma scanRing_mem (ctx : GridCtx) (avail : Finset ℕ) (q : P3) (c : Cell)
    (r : ℕ) (b : ℕ × ℚ) (h : scanRing ctx avail q c r = some b) :
    b.1 ∈ avail ∧ b.1 < ctx.len := by
  obtain ⟨j, d⟩ := b
  obtain ⟨hmem, _⟩ := foldBest_none_mem ctx q _ j d h
  rcases List.mem_flatMap.mp hmem with ⟨key, _, hkey⟩
  have := List.mem_filter.mp hkey
  simp only [Bool.and_eq_true, decide_eq_true_eq, List.mem_range] at this
  exact ⟨this.2.1, this.1⟩

/-- A candidate produced by the fallback scan is an available index below the
vertex count. -/
lemma fallbackScan_mem (ctx : GridCtx) (avail : Finset ℕ) (q : P3)
    (b : ℕ × ℚ) (h : fallbackScan ctx avail q = some b) :
    b.1 ∈ avail ∧ b.1 < ctx.len := by
  obtain ⟨j, d⟩ := b
  obtain ⟨hmem, _⟩ := foldBest_none_mem ctx q _ j d h
  have := List.mem_filter.mp hmem
  simp only [decide_eq_true_eq, List.mem_range] at this
  exact ⟨this.2, this.1⟩

/-- The chosen nearest index is always still available. -/
lemma findNearest_mem_avail (ctx : GridCtx) (avail : Finset ℕ) (q : P3) (j : ℕ)
    (h : findNearest ctx avail q = some j) : j ∈ avail := by
  simp only [findNearest] at h
  cases h0 : scanRing ctx avail q (cellOf ctx q) 0 with
  | some b =>
    rw [h0] at h
    simp only [Option.some.injEq] at h
    rw [← h]
    exact (scanRing_mem ctx avail q _ 0 b h0).1
  | none =>
    rw [h0] at h
    cases h1 : scanRing ctx avail q (cellOf ctx q) 1 with
    | some b =>
      rw [h1] at h
      simp only [Option.some.injEq] at h
      rw [← h]
      exact (scanRing_mem ctx avail q _ 1 b h1).1
    | none =>
      rw [h1] at h
      cases h2 : scanRing ctx avail q (cellOf ctx q) 2 with
      | some b =>
        rw [h2] at h
        simp only [Option.some.injEq] at h
        rw [← h]
        exact (scanRing_mem ctx avail q _ 2 b h2).1
      | none =>
        rw [h2] at h
        cases h3 : fallbackScan ctx avail q with
        | some b =>
          rw [h3] at h
          simp only [Option.some.injEq] at h
          rw [← h]
          exact (fallbackScan_mem ctx avail q b h3).1
        | none => rw [h3] at h; cases h

/-- While at least one index is available, the nearest query always succeeds,
because the fallback linear scan sees the whole available set. -/
lemma findNearest_total (ctx : GridCtx) (avail : Finset ℕ) (q : P3)
    (hne : avail.Nonempty) (hsub : avail ⊆ Finset.range ctx.len) :
    ∃ j, findNearest ctx avail q = some j := by
  obtain ⟨a, ha⟩ := hne
  simp only [findNearest]
  cases h0 : scanRing ctx avail q (cellOf ctx q) 0 with
  | some b => exact ⟨b.1, rfl⟩
  | none =>
    cases h1 : scanRing ctx avail q (cellOf ctx q) 1 with
    | some b => exact ⟨b.1, rfl⟩
    | none =>
      cases h2 : scanRing ctx avail q (cellOf ctx q) 2 with
      | some b => exact ⟨b.1, rfl⟩
      | none =>
        have hmem : a ∈ (List.range ctx.len).filter (fun i => decide (i ∈ avail)) := by
          refine List.mem_filter.mpr ⟨?_, by simpa using ha⟩
          exact List.mem_range.mpr (Finset.mem_range.mp (hsub ha))
        obtain ⟨j, d, heq, _, _, _⟩ :=
          foldBest_none_spec ctx q _ (List.ne_nil_of_mem hmem)
        have hf : fallbackScan ctx avail q = some (j, d) := heq
        rw [hf]
        exact ⟨j, rfl⟩

/-- The radius zero cube scan visits exactly the center cell. -/
lemma ringCells_zero (c : Cell) : ringCells c 0 = [c] := by
  simp [ringCells, cellOffsets, List.range_succ]

/-- When some available target point coincides with the query point, the
nearest query succeeds already in the radius zero pass and returns an
available index whose point equals the query point. -/
lemma findNearest_exact (ctx : GridCtx) (avail : Finset ℕ) (q : P3)
    (hsub : avail ⊆ Finset.range ctx.len) (j₀ : ℕ) (hj₀ : j₀ ∈ avail)
    (hval : ctx.tgt.getD j₀ pzero = q) :
    ∃ j, findNearest ctx avail q = some j ∧ j ∈ avail ∧
      ctx.tgt.getD j pzero = q := by
  have hj₀len : j₀ < ctx.len := Finset.mem_range.mp (hsub hj₀)
  have hj₀mem : j₀ ∈ bucketList ctx avail (cellOf ctx q) := by
    refine List.mem_filter.mpr ⟨List.mem_range.mpr hj₀len, ?_⟩
    simp only [Bool.and_eq_true, decide_eq_true_eq]
    exact ⟨hj₀, by rw [hval]⟩
  have hL0 : (ringCells (cellOf ctx q) 0).flatMap
      (fun key => bucketList ctx avail key) = bucketList ctx avail (cellOf ctx q) := by
    rw [ringCells_zero]
    simp
  have hne : bucketList ctx avail (cellOf ctx q) ≠ [] := List.ne_nil_of_mem hj₀mem
  obtain ⟨j, d, heq, hjmem, hd, hall⟩ :=
    foldBest_none_spec ctx q (bucketList ctx avail (cellOf ctx q)) hne
  have hscan0 : scanRing ctx avail q (cellOf ctx q) 0 = some (j, d) := by
    unfold scanRing
    rw [hL0]
    exact heq
  have hd0 : d = 0 := by
    have hle : d ≤ dist2 q (ctx.tgt.getD j₀ pzero) := hall j₀ hj₀mem
    rw [hval, dist2_self] at hle
    have hge : 0 ≤ d := by rw [hd]; exact dist2_nonneg _ _
    linarith
  have hjav : j ∈ avail := by
    have := List.mem_filter.mp hjmem
    simp only [Bool.and_eq_true, decide_eq_true_eq] at this
    exact this.2.1
  have hjval : ctx.tgt.getD j pzero = q := by
    apply dist2_eq_zero
    rw [← hd, hd0]
  refine ⟨j, ?_, hjav, hjval⟩
  simp only [findNearest]
  rw [hscan0]

/-- The context always carries the target cloud verbatim. -/
lemma mkCtx_tgt (ref tgt : List P3) : (mkCtx ref tgt).tgt = tgt := by
  unfold mkCtx
  split <;> rfl

/-- The context always carries the reference vertex count. -/
lemma mkCtx_len (ref tgt : List P3) : (mkCtx ref tgt).len = ref.length := by
  unfold mkCtx
  split <;> rfl

/-- One assignment slot is emitted per reference point. -/
lemma assignAll_length (ctx : GridCtx) :
    ∀ (refs : List P3) (avail : Finset ℕ),
      (assignAll ctx refs avail).length = refs.length := by
  intro refs
  induction refs with
  | nil => intro avail; rfl
  | cons q rest ih =>
    intro avail
    rw [assignAll]
    cases findNearest ctx avail q <;> simp [ih]

/-- Reading every position of a list through getD over its index range
reproduces the list. -/
lemma list_map_getD_range :
    ∀ (l : List P3), (List.range l.length).map (fun i => l.getD i pzero) = l := by
  intro l
  induction l with
  | nil => rfl
  | cons a l ih =>
    rw [List.length_cons, List.range_succ_eq_map, List.map_cons, List.map_map]
    refine congrArg₂ _ rfl ?_
    have hcomp : ((fun i => (a :: l).getD i pzero) ∘ Nat.succ) =
        (fun i => l.getD i pzero) := by
      funext i
      simp
    rw [hcomp, ih]

/-- Greedy identity invariant: if the multiset of points of the available
indices equals the multiset of remaining reference points, every step finds
an exact match, consumes one copy, and reproduces the reference points. -/
lemma assignAll_identity (ctx : GridCtx) :
    ∀ (refs : List P3) (avail : Finset ℕ),
      avail ⊆ Finset.range ctx.len →
      Multiset.map (fun j => ctx.tgt.getD j pzero) avail.val = (refs : Multiset P3) →
      (assignAll ctx refs avail).map
        (fun o => match o with
          | some j => ctx.tgt.getD j pzero
          | none => pzero) = refs := by
  intro refs
  induction refs with
  | nil => intro avail _ _; rfl
  | cons q rest ih =>
    intro avail hsub hmul
    have hqmem : q ∈ Multiset.map (fun j => ctx.tgt.getD j pzero) avail.val := by
      rw [hmul]
      simp
    obtain ⟨j₀, hj₀v, hj₀val⟩ := Multiset.mem_map.mp hqmem
    have hj₀ : j₀ ∈ avail := hj₀v
    obtain ⟨j, hfind, hjav, hjval⟩ := findNearest_exact ctx avail q hsub j₀ hj₀ hj₀val
    rw [assignAll, hfind, List.map_cons]
    refine congrArg₂ _ hjval ?_
    have hjv : j ∈ avail.val := hjav
    have hsub' : avail.erase j ⊆ Finset.range ctx.len :=
      Finset.Subset.trans (Finset.erase_subset _ _) hsub
    have hmul' : Multiset.map (fun j' => ctx.tgt.getD j' pzero) (avail.erase j).val =
        (rest : Multiset P3) := by
      have hdecomp : avail.val = j ::ₘ avail.val.erase j :=
        (Multiset.cons_erase hjv).symm
      rw [hdecomp, Multiset.map_cons, hjval] at hmul
      have hrest : (q :: rest : Multiset P3) =
          q ::ₘ (rest : Multiset P3) := rfl
      rw [hrest] at hmul
      have := (Multiset.cons_inj_right q).mp hmul
      rw [Finset.erase_val]
      exact this
    exact ih (avail.erase j) hsub' hmul'

/-- C4: running the Correspondence Builder with reference and target both
equal to the same cloud returns that cloud unchanged, point for point. -/
theorem reorderToNearest_identity (P : List P3) :
    reorderToNearest P P = Except.ok P := by
  unfold reorderToNearest
  rw [if_neg (by omega)]
  refine congrArg _ ?_
  unfold reorderAssignment
  have htgt := mkCtx_tgt P P
  have hlen := mkCtx_len P P
  have hbase : Multiset.map (fun j => (mkCtx P P).tgt.getD j pzero)
      (Finset.range P.length).val = (P : Multiset P3) := by
    rw [htgt, Finset.range_val]
    have : Multiset.range P.length = ((List.range P.length : List ℕ) : Multiset ℕ) := rfl
    rw [this, Multiset.map_coe, list_map_getD_range]
  have := assignAll_identity (mkCtx P P) P (Finset.range P.length)
    (by rw [hlen]) hbase
  rw [htgt] at this
  exact this

/-- Greedy consumption invariant: with as many available indices as
reference points, every step succeeds and consumes a fresh available index,
so the recorded choices are all present, pairwise distinct, and drawn from
the initially available set. -/
lemma assignAll_bij (ctx : GridCtx) :
    ∀ (refs : List P3) (avail : Finset ℕ),
      avail ⊆ Finset.range ctx.len → avail.card = refs.length →
      (∀ o ∈ assignAll ctx refs avail, o.isSome = true) ∧
      ((assignAll ctx refs avail).filterMap id).Nodup ∧
      ((assignAll ctx refs avail).filterMap id).length = refs.length ∧
      ∀ j ∈ (assignAll ctx refs avail).filterMap id, j ∈ avail := by
  intro refs
  induction refs with
  | nil =>
    intro avail _ _
    exact ⟨by simp [assignAll], by simp [assignAll], by simp [assignAll],
      by simp [assignAll]⟩
  | cons q rest ih =>
    intro avail hsub hcard
    have hpos : 0 < avail.card := by rw [hcard]; simp
    obtain ⟨j, hfind⟩ :=
      findNearest_total ctx avail q (Finset.card_pos.mp hpos) hsub
    have hjav : j ∈ avail := findNearest_mem_avail ctx avail q j hfind
    have hsub' : avail.erase j ⊆ Finset.range ctx.len :=
      Finset.Subset.trans (Finset.erase_subset _ _) hsub
    have hcard' : (avail.erase j).card = rest.length := by
      rw [Finset.card_erase_of_mem hjav, hcard]
      simp
    obtain ⟨ih1, ih2, ih3, ih4⟩ := ih (avail.erase j) hsub' hcard'
    rw [assignAll, hfind]
    refine ⟨?_, ?_, ?_, ?_⟩
    · intro o ho
      rcases List.mem_cons.mp ho with rfl | ho'
      · rfl
      · exact ih1 o ho'
    · rw [List.filterMap_cons]
      simp only [id]
      refine List.Nodup.cons ?_ ih2
      intro hjmem
      exact absurd (ih4 j hjmem) (Finset.not_mem_erase j avail)
    · rw [List.filterMap_cons]
      simp only [id, List.length_cons, ih3, List.length_cons]
    · intro j' hj'
      rw [List.filterMap_cons] at hj'
      simp only [id] at hj'
      rcases List.mem_cons.mp hj' with rfl | hj''
      · exact hjav
      · exact Finset.mem_of_mem_erase (ih4 j' hj'')

/-- C1: for equal length reference and target clouds the Correspondence
Builder output is a bijection on target indices: one assignment per
reference index, every assignment present, no target index chosen twice,
and the chosen indices are exactly 0 to N - 1. -/
theorem reorderToNearest_bijection (ref tgt : List P3) (h : ref.length = tgt.length) :
    (reorderAssignment ref tgt).length = tgt.length ∧
    (∀ o ∈ reorderAssignment ref tgt, o.isSome = true) ∧
    ((reorderAssignment ref tgt).filterMap id).Nodup ∧
    ((reorderAssignment ref tgt).filterMap id).length = tgt.length ∧
    ((reorderAssignment ref tgt).filterMap id).toFinset = Finset.range tgt.length := by
  unfold reorderAssignment
  have hlen := mkCtx_len ref tgt
  have hsub : Finset.range ref.length ⊆ Finset.range (mkCtx ref tgt).len := by
    rw [hlen]
  have hcard : (Finset.range ref.length).card = ref.length := Finset.card_range _
  obtain ⟨h1, h2, h3, h4⟩ := assignAll_bij (mkCtx ref tgt) ref
    (Finset.range ref.length) hsub hcard
  refine ⟨by rw [assignAll_length, h], h1, h2, by rw [h3, h], ?_⟩
  have hsubset : ((assignAll (mkCtx ref tgt) ref (Finset.range ref.length)).filterMap
      id).toFinset ⊆ Finset.range tgt.length := by
    intro j hj
    have := h4 j (List.mem_toFinset.mp hj)
    rwa [← h]
  refine Finset.eq_of_subset_of_card_le hsubset ?_
  rw [Finset.card_range, List.toFinset_card_of_nodup h2]
  omega

/-- Witness for C1 at a concrete one point pair. -/
theorem reorderToNearest_bijection_witness :
    ([pzero] : List P3).length = ([pzero] : List P3).length ∧
    ((reorderAssignment [pzero] [pzero]).length = ([pzero] : List P3).length ∧
    (∀ o ∈ reorderAssignment [pzero] [pzero], o.isSome = true) ∧
    ((reorderAssignment [pzero] [pzero]).filterMap id).Nodup ∧
    ((reorderAssignment [pzero] [pzero]).filterMap id).length =
      ([pzero] : List P3).length ∧
    ((reorderAssignment [pzero] [pzero]).filterMap id).toFinset =
      Finset.range ([pzero] : List P3).length) :=
  ⟨rfl, reorderToNearest_bijection [pzero] [pzero] rfl⟩

/-- Soundness of the assignment enumeration: every listed assignment has the
requested length, no repeated value, and values below the bound. -/
lemma injLists_sound :
    ∀ (k n : ℕ) (l : List ℕ), l ∈ injLists k n →
      l.length = k ∧ l.Nodup ∧ ∀ j ∈ l, j < n := by
  intro k
  induction k with
  | zero =>
    intro n l hl
    simp only [injLists, List.mem_singleton] at hl
    subst hl
    exact ⟨rfl, List.nodup_nil, by simp⟩
  | succ k ih =>
    intro n l hl
    simp only [injLists] at hl
    rcases List.mem_flatMap.mp hl with ⟨j, hj, hmem⟩
    rcases List.mem_filterMap.mp hmem with ⟨rest, hrest, hsome⟩
    by_cases hjr : j ∈ rest
    · rw [if_pos hjr] at hsome
      cases hsome
    · rw [if_neg hjr] at hsome
      have hl' : l = j :: rest := (Option.some.inj hsome).symm
      obtain ⟨hlen, hnd, hbnd⟩ := ih n rest hrest
      subst hl'
      refine ⟨by simp [hlen], List.Nodup.cons hjr hnd, ?_⟩
      intro j' hj'
      rcases List.mem_cons.mp hj' with rfl | hj''
      · exact List.mem_range.mp hj
      · exact hbnd j' hj''

/-- Completeness of the assignment enumeration: every list of the requested
length with distinct values below the bound is listed. -/
lemma injLists_complete :
    ∀ (k n : ℕ) (l : List ℕ), l.length = k → l.Nodup → (∀ j ∈ l, j < n) →
      l ∈ injLists k n := by
  intro k
  induction k with
  | zero =>
    intro n l hlen _ _
    simp only [injLists, List.mem_singleton]
    exact List.eq_nil_of_length_eq_zero hlen
  | succ k ih =>
    intro n l hlen hnd hbnd
    match l, hlen with
    | j :: rest, hlen =>
      simp only [injLists]
      refine List.mem_flatMap.mpr ⟨j, List.mem_range.mpr (hbnd j (by simp)), ?_⟩
      refine List.mem_filterMap.mpr ⟨rest, ?_, ?_⟩
      · exact ih n rest (by simpa using hlen) (List.Nodup.of_cons hnd)
          (fun j' hj' => hbnd j' (List.mem_cons_of_mem _ hj'))
      · rw [if_neg (List.Nodup.not_mem hnd)]

/-- The first minimum returned by pickMin is an element of the list. -/
lemma pickMin_mem {α : Type} (f : α → ℚ) :
    ∀ (L : List α) (a : α), pickMin f L = some a → a ∈ L := by
  intro L
  induction L with
  | nil => intro a h; cases h
  | cons hd rest ih =>
    intro a h
    rw [pickMin] at h
    cases hp : pickMin f rest with
    | none =>
      simp only [hp] at h
      have ha : a = hd := (Option.some.inj h).symm
      subst ha
      exact List.mem_cons_self _ _
    | some b =>
      simp only [hp] at h
      by_cases hlt : f b < f hd
      · rw [if_pos hlt] at h
        have ha : a = b := (Option.some.inj h).symm
        subst ha
        exact List.mem_cons_of_mem _ (ih a hp)
      · rw [if_neg hlt] at h
        have ha : a = hd := (Option.some.inj h).symm
        subst ha
        exact List.mem_cons_self _ _

/-- pickMin returns none exactly on the empty list. -/
lemma pickMin_ne_nil {α : Type} (f : α → ℚ) :
    ∀ (L : List α), L ≠ [] → ∃ a, pickMin f L = some a := by
  intro L hL
  match L, hL with
  | hd :: rest, _ =>
    rw [pickMin]
    cases pickMin f rest with
    | none => exact ⟨hd, rfl⟩
    | some b => by_cases hlt : f b < f hd <;> simp [hlt]

/-- The value of pickMin is minimal over the list. -/
lemma pickMin_le {α : Type} (f : α → ℚ) :
    ∀ (L : List α) (a : α), pickMin f L = some a → ∀ b ∈ L, f a ≤ f b := by
  intro L
  induction L with
  | nil => intro a h; cases h
  | cons hd rest ih =>
    intro a h b hb
    rw [pickMin] at h
    cases hp : pickMin f rest with
    | none =>
      simp only [hp] at h
      have hrest : rest = [] := by
        cases hre : rest with
        | nil => rfl
        | cons x xs =>
          obtain ⟨c, hc⟩ := pickMin_ne_nil f (x :: xs) (by simp)
          rw [hre, hc] at hp
          cases hp
      subst hrest
      have ha : a = hd := (Option.some.inj h).symm
      rcases List.mem_cons.mp hb with rfl | hb'
      · rw [ha]
      · cases hb'
    | some c =>
      simp only [hp] at h
      by_cases hlt : f c < f hd
      · rw [if_pos hlt] at h
        have ha : a = c := (Option.some.inj h).symm
        subst ha
        rcases List.mem_cons.mp hb with rfl | hb'
        · exact le_of_lt hlt
        · exact ih a hp b hb'
      · rw [if_neg hlt] at h
        have ha : a = hd := (Option.some.inj h).symm
        subst ha
        rcases List.mem_cons.mp hb with rfl | hb'
        · exact le_refl _
        · exact le_trans (not_lt.mp hlt) (ih c hp b hb')

/-- Mapping the second projection over a zip with an equally long list is
mapping over that list. -/
lemma zip_map_snd {α β γ : Type} (f : β → γ) :
    ∀ (l1 : List α) (l2 : List β), l1.length = l2.length →
      ((l1.zip l2).map (fun p => f p.2)) = l2.map f := by
  intro l1
  induction l1 with
  | nil =>
    intro l2 hlen
    have h2 : l2 = [] := List.eq_nil_of_length_eq_zero (by simpa using hlen.symm)
    subst h2
    rfl
  | cons a l1 ih =>
    intro l2 hlen
    match l2, hlen with
    | b :: l2, hlen =>
      simp only [List.zip_cons_cons, List.map_cons]
      exact congrArg _ (ih l2 (by simpa using hlen))

/-- C2 (amended, spec-modelled solver): on an empty first palette the cost
matrix is empty and the call fails explicitly, per section 7 of the spec.
Otherwise, with at most as many colors in the first palette as in the
second, the pairing output has length min(M, N) = M, entry i is the partner
chosen for index i of the first palette, read out of the second palette, and
the total matrix cost of the chosen assignment is minimal among all
one-to-one assignments of size min(M, N).  With M larger than N the output
length is min(M, N), not M, as the separate counterexample shows. -/
theorem sortColorsByPairing_minimal (dist : RGB → RGB → ℚ) (A B : List RGB)
    (hMN : A.length ≤ B.length) :
    (A = [] → sortColorsByPairing dist A B = Except.error munkresEmptyMsg) ∧
    (A ≠ [] → ∃ l : List ℕ,
      l.length = A.length ∧ l.Nodup ∧ (∀ j ∈ l, j < B.length) ∧
      sortColorsByPairing dist A B =
        Except.ok (l.map (fun j => B.getD j rgbZero)) ∧
      (l.map (fun j => B.getD j rgbZero)).length = min A.length B.length ∧
      ∀ l' : List ℕ, l'.length = A.length → l'.Nodup → (∀ j ∈ l', j < B.length) →
        assignCost (createDistanceMatrix dist A B) l ≤
          assignCost (createDistanceMatrix dist A B) l') := by
  constructor
  · intro hA
    subst hA
    rfl
  · intro hA
    match A, hA with
    | a :: A', _ =>
      set D := createDistanceMatrix dist (a :: A') B with hD
      have hDne : ¬ D = [] := by simp [hD, createDistanceMatrix]
      have hDlen : D.length = (a :: A').length := by
        simp [hD, createDistanceMatrix]
      have hn : (D.headD []).length = B.length := by
        simp [hD, createDistanceMatrix]
      have hmle : D.length ≤ (D.headD []).length := by
        rw [hDlen, hn]
        exact hMN
      have hrange : List.range D.length ∈ injLists D.length (D.headD []).length := by
        refine injLists_complete _ _ _ (List.length_range _) (List.nodup_range _) ?_
        intro j hj
        exact lt_of_lt_of_le (List.mem_range.mp hj) hmle
      obtain ⟨l₀, hpick⟩ := pickMin_ne_nil (assignCost D)
        (injLists D.length (D.headD []).length) (List.ne_nil_of_mem hrange)
      obtain ⟨hlen₀, hnd₀, hbnd₀⟩ := injLists_sound _ _ l₀ (pickMin_mem _ _ _ hpick)
      have hmunk : munkres D = Except.ok ((List.range D.length).zip l₀) := by
        simp only [munkres]
        rw [if_neg hDne, if_pos hmle, hpick]
      have hsort : sortColorsByPairing dist (a :: A') B =
          (munkres D).map (fun results =>
            results.map (fun res => B.getD res.2 rgbZero)) := rfl
      have hzip : ((List.range D.length).zip l₀).map
          (fun res => B.getD res.2 rgbZero) = l₀.map (fun j => B.getD j rgbZero) :=
        zip_map_snd (fun j => B.getD j rgbZero) (List.range D.length) l₀
          (by rw [List.length_range, hlen₀])
      have hmap : sortColorsByPairing dist (a :: A') B =
          Except.ok (l₀.map (fun j => B.getD j rgbZero)) := by
        rw [hsort, hmunk, Except.map, hzip]
      refine ⟨l₀, by rw [hlen₀, hDlen], hnd₀, ?_, hmap, ?_, ?_⟩
      · intro j hj
        exact hn ▸ hbnd₀ j hj
      · rw [List.length_map, hlen₀, hDlen, Nat.min_eq_left hMN]
      · intro l' hl1 hl2 hl3
        have hl' : l' ∈ injLists D.length (D.headD []).length := by
          refine injLists_complete _ _ _ (by rw [hl1, hDlen]) hl2 ?_
          intro j hj
          rw [hn]
          exact hl3 j hj
        exact pickMin_le _ _ _ hpick l' hl'

/-- Witness for C2 at one gray color against a two color palette. -/
theorem sortColorsByPairing_minimal_witness :
    ([rgbZero] : List RGB).length ≤ ([rgbZero, ⟨1, 1, 1⟩] : List RGB).length ∧
    ((([rgbZero] : List RGB) = [] →
      sortColorsByPairing (fun _ _ => 0) [rgbZero] [rgbZero, ⟨1, 1, 1⟩] =
        Except.error munkresEmptyMsg) ∧
    (([rgbZero] : List RGB) ≠ [] → ∃ l : List ℕ,
      l.length = ([rgbZero] : List RGB).length ∧ l.Nodup ∧
      (∀ j ∈ l, j < ([rgbZero, ⟨1, 1, 1⟩] : List RGB).length) ∧
      sortColorsByPairing (fun _ _ => 0) [rgbZero] [rgbZero, ⟨1, 1, 1⟩] =
        Except.ok (l.map (fun j => ([rgbZero, ⟨1, 1, 1⟩] : List RGB).getD j rgbZero)) ∧
      (l.map (fun j => ([rgbZero, ⟨1, 1, 1⟩] : List RGB).getD j rgbZero)).length =
        min ([rgbZero] : List RGB).length ([rgbZero, ⟨1, 1, 1⟩] : List RGB).length ∧
      ∀ l' : List ℕ, l'.length = ([rgbZero] : List RGB).length → l'.Nodup →
        (∀ j ∈ l', j < ([rgbZero, ⟨1, 1, 1⟩] : List RGB).length) →
        assignCost (createDistanceMatrix (fun _ _ => 0) [rgbZero] [rgbZero, ⟨1, 1, 1⟩]) l ≤
          assignCost (createDistanceMatrix (fun _ _ => 0) [rgbZero] [rgbZero, ⟨1, 1, 1⟩]) l')) :=
  ⟨by decide, sortColorsByPairing_minimal (fun _ _ => 0) [rgbZero] [rgbZero, ⟨1, 1, 1⟩]
    (by decide)⟩

/-- The assignment enumeration with at most as many slots as values is
nonempty. -/
lemma injLists_ne_nil (k n : ℕ) (h : k ≤ n) : injLists k n ≠ [] :=
  List.ne_nil_of_mem (injLists_complete k n (List.range k) (List.length_range _)
    (List.nodup_range _) (fun j hj => lt_of_lt_of_le (List.mem_range.mp hj) h))

/-- On a nonempty cost matrix the modelled solver succeeds and returns
min(rows, columns) pairs. -/
lemma munkres_ok_length (D : List (List ℚ)) (hD : D ≠ []) :
    ∃ pairs, munkres D = Except.ok pairs ∧
      pairs.length = min D.length (D.headD []).length := by
  by_cases hmn : D.length ≤ (D.headD []).length
  · obtain ⟨l₀, hpick⟩ := pickMin_ne_nil (assignCost D)
      (injLists D.length (D.headD []).length) (injLists_ne_nil _ _ hmn)
    have hsound := injLists_sound _ _ l₀ (pickMin_mem _ _ _ hpick)
    refine ⟨(List.range D.length).zip l₀, ?_, ?_⟩
    · simp only [munkres]
      rw [if_neg hD, if_pos hmn, hpick]
    · simp only [List.length_zip, List.length_range, hsound.1]
      omega
  · have hnm : (D.headD []).length ≤ D.length := le_of_not_le hmn
    obtain ⟨g, hpick⟩ := pickMin_ne_nil (assignCostT D)
      (injLists (D.headD []).length D.length) (injLists_ne_nil _ _ hnm)
    have hsound := injLists_sound _ _ g (pickMin_mem _ _ _ hpick)
    refine ⟨g.zip (List.range (D.headD []).length), ?_, ?_⟩
    · simp only [munkres]
      rw [if_neg hD, if_neg hmn, hpick]
    · simp only [List.length_zip, List.length_range, hsound.1]
      omega

/-- Counterexample for C2 as stated: with two colors in the first palette
and one in the second, the successful output holds min(M, N) = 1 entry, not
M = 2. -/
theorem sortColorsByPairing_cex :
    Except.map List.length
      (sortColorsByPairing (fun _ _ => 0) [rgbZero, rgbZero] [⟨1, 1, 1⟩]) ≠
      Except.ok 2 := by
  obtain ⟨pairs, hok, hlen⟩ := munkres_ok_length
    (createDistanceMatrix (fun _ _ => 0) [rgbZero, rgbZero] [⟨1, 1, 1⟩])
    (by simp [createDistanceMatrix])
  have hlen1 : pairs.length = 1 := by
    rw [hlen]
    rfl
  have hs : sortColorsByPairing (fun _ _ => 0) [rgbZero, rgbZero] [⟨1, 1, 1⟩] =
      (munkres (createDistanceMatrix (fun _ _ => 0) [rgbZero, rgbZero]
        [⟨1, 1, 1⟩])).map (fun results =>
          results.map (fun res =>
            ([⟨1, 1, 1⟩] : List RGB).getD res.2 rgbZero)) := rfl
  rw [hs, hok]
  simp [Except.map, hlen1]

/-- Inverting the Lab nonlinearity recovers the argument exactly, on both
branches; the branch thresholds correspond exactly. -/
lemma lab2xyz_xyz2lab (t : ℝ) : lab2xyz (xyz2lab t) = t := by
  unfold xyz2lab lab2xyz
  by_cases h : t > t3
  · rw [if_pos h]
    have ht3 : (0:ℝ) < t3 := by norm_num [t3, t1]
    have ht0 : (0:ℝ) ≤ t := le_of_lt (lt_trans ht3 h)
    have hid : (t ^ ((1:ℝ)/3)) ^ (3:ℕ) = t := by
      rw [show (1:ℝ)/3 = ((3:ℕ):ℝ)⁻¹ by norm_num]
      exact Real.rpow_inv_natCast_pow ht0 (by norm_num)
    have hgt : t1 < t ^ ((1:ℝ)/3) := by
      by_contra hle
      push_neg at hle
      have h3 : (t ^ ((1:ℝ)/3)) ^ (3:ℕ) ≤ t1 ^ (3:ℕ) :=
        pow_le_pow_left₀ (Real.rpow_nonneg ht0 _) hle 3
      rw [hid] at h3
      have ht13 : t1 ^ (3:ℕ) = t3 := by
        rw [t3]
        ring
      rw [ht13] at h3
      linarith
    rw [if_pos hgt]
    calc t ^ ((1:ℝ)/3) * t ^ ((1:ℝ)/3) * t ^ ((1:ℝ)/3)
        = (t ^ ((1:ℝ)/3)) ^ (3:ℕ) := by ring
      _ = t := hid
  · rw [if_neg h]
    have hle : t ≤ t3 := not_lt.mp h
    have ht2 : (0:ℝ) < t2 := by norm_num [t2, t1]
    have hcond : ¬ (t / t2 + 4 / 29 > t1) := by
      push_neg
      have hdiv : t / t2 ≤ t3 / t2 := by gcongr
      have hnum : t3 / t2 + 4 / 29 = t1 := by
        rw [t3, t2, t1]
        norm_num
      linarith
    rw [if_neg hcond]
    field_simp
    ring

/-- The linearized value of a channel between 0 and 255 is nonnegative. -/
lemma rgb2lrgb_nonneg (x : ℝ) (h0 : 0 ≤ x) : 0 ≤ rgb2lrgb x := by
  unfold rgb2lrgb
  by_cases h : x / 255 ≤ 0.04045
  · rw [if_pos h]
    positivity
  · rw [if_neg h]
    apply Real.rpow_nonneg
    have hx255 : (0:ℝ) ≤ x / 255 := by positivity
    positivity

/-- The linearized value of a channel between 0 and 255 is at most one. -/
lemma rgb2lrgb_le_one (x : ℝ) (h0 : 0 ≤ x) (h255 : x ≤ 255) : rgb2lrgb x ≤ 1 := by
  unfold rgb2lrgb
  have hx255 : x / 255 ≤ 1 := by
    rw [div_le_one (by norm_num : (0:ℝ) < 255)]
    linarith
  have hx255' : (0:ℝ) ≤ x / 255 := by positivity
  by_cases h : x / 255 ≤ 0.04045
  · rw [if_pos h]
    rw [div_le_one (by norm_num : (0:ℝ) < 12.92)]
    linarith
  · rw [if_neg h]
    push_neg at h
    refine Real.rpow_le_one (by positivity) ?_ (by norm_num)
    rw [div_le_one (by norm_num : (0:ℝ) < 1.055)]
    linarith

/-- Subadditivity of real powers with exponent at most one, transferred from
the nonnegative reals. -/
lemma real_rpow_add_le_add_rpow (x y : ℝ) (hx : 0 ≤ x) (hy : 0 ≤ y) (p : ℝ)
    (hp : 0 ≤ p) (hp1 : p ≤ 1) : (x + y) ^ p ≤ x ^ p + y ^ p := by
  have h := NNReal.rpow_add_le_add_rpow x.toNNReal y.toNNReal hp hp1
  have h2 : (((x.toNNReal + y.toNNReal) ^ p : NNReal) : ℝ) ≤
      ((x.toNNReal ^ p + y.toNNReal ^ p : NNReal) : ℝ) := by
    exact_mod_cast h
  rw [NNReal.coe_rpow, NNReal.coe_add, NNReal.coe_add, NNReal.coe_rpow,
    NNReal.coe_rpow, Real.coe_toNNReal _ hx, Real.coe_toNNReal _ hy] at h2
  exact h2

/-- The decode exponent is short range: a difference of powers with exponent
one over 2.4 is bounded by the power of the difference. -/
lemma rpow_sub_abs_le (a b : ℝ) (ha : 0 ≤ a) (hb : 0 ≤ b) :
    |a ^ ((1:ℝ)/2.4) - b ^ ((1:ℝ)/2.4)| ≤ |a - b| ^ ((1:ℝ)/2.4) := by
  have hp0 : (0:ℝ) ≤ 1/2.4 := by norm_num
  have hp1 : (1:ℝ)/2.4 ≤ 1 := by norm_num
  have key : ∀ u v : ℝ, 0 ≤ v → v ≤ u →
      u ^ ((1:ℝ)/2.4) - v ^ ((1:ℝ)/2.4) ≤ (u - v) ^ ((1:ℝ)/2.4) := by
    intro u v hv hvu
    have hsub : u ^ ((1:ℝ)/2.4) ≤ v ^ ((1:ℝ)/2.4) + (u - v) ^ ((1:ℝ)/2.4) := by
      calc u ^ ((1:ℝ)/2.4) = (v + (u - v)) ^ ((1:ℝ)/2.4) := by ring_nf
        _ ≤ _ := real_rpow_add_le_add_rpow v (u - v) hv (by linarith) _ hp0 hp1
    linarith
  rcases le_total b a with hba | hab
  · rw [abs_of_nonneg (sub_nonneg.mpr (Real.rpow_le_rpow hb hba hp0)),
      abs_of_nonneg (sub_nonneg.mpr hba)]
    exact key a b hb hba
  · rw [abs_sub_comm, abs_sub_comm a b,
      abs_of_nonneg (sub_nonneg.mpr (Real.rpow_le_rpow ha hab hp0)),
      abs_of_nonneg (sub_nonneg.mpr hab)]
    exact key b a ha hab

/-- Upper bound transfer for the decode exponent: a rational power comparison
of fifth against twelfth powers bounds the power with exponent one over
2.4. -/
lemma rpow_inv_le (x U : ℝ) (hx : 0 ≤ x) (hU : 0 ≤ U)
    (h : x ^ (5:ℕ) ≤ U ^ (12:ℕ)) : x ^ ((1:ℝ)/2.4) ≤ U := by
  by_contra hcon
  push_neg at hcon
  have hx12 : (x ^ ((1:ℝ)/2.4)) ^ (12:ℕ) = x ^ (5:ℕ) := by
    rw [← Real.rpow_natCast (x ^ ((1:ℝ)/2.4)) 12, ← Real.rpow_mul hx,
      show (1:ℝ)/2.4 * (12:ℕ) = ((5:ℕ):ℝ) by norm_num]
    exact Real.rpow_natCast x 5
  have hlt : U ^ (12:ℕ) < (x ^ ((1:ℝ)/2.4)) ^ (12:ℕ) :=
    pow_lt_pow_left₀ hcon hU (by norm_num)
  rw [hx12] at hlt
  linarith

/-- Lower bound transfer for the encode exponent: a rational power comparison
of fifth against twelfth powers bounds the power with exponent 2.4 from
below. -/
lemma le_rpow_24 (L x : ℝ) (hL : 0 ≤ L) (hx : 0 ≤ x)
    (h : L ^ (5:ℕ) ≤ x ^ (12:ℕ)) : L ≤ x ^ (2.4:ℝ) := by
  by_contra hcon
  push_neg at hcon
  have hx24 : (x ^ (2.4:ℝ)) ^ (5:ℕ) = x ^ (12:ℕ) := by
    rw [← Real.rpow_natCast (x ^ (2.4:ℝ)) 5, ← Real.rpow_mul hx,
      show (2.4:ℝ) * (5:ℕ) = ((12:ℕ):ℝ) by norm_num]
    exact Real.rpow_natCast x 12
  have hlt : (x ^ (2.4:ℝ)) ^ (5:ℕ) < L ^ (5:ℕ) :=
    pow_lt_pow_left₀ hcon (Real.rpow_nonneg hx _) (by norm_num)
  rw [hx24] at hlt
  linarith

/-- A real within 1.4 of an integer rounds to within one of it. -/
lemma round_abs_le (v : ℝ) (c : ℤ) (h : |v - c| ≤ 1.4) : |round v - c| ≤ 1 := by
  rw [round_eq]
  obtain ⟨hl, hu⟩ := abs_le.mp h
  have h1 : (c - 1 : ℤ) ≤ ⌊v + 1/2⌋ := by
    apply Int.le_floor.mpr
    push_cast
    linarith
  have h2 : ⌊v + 1/2⌋ < c + 2 := by
    apply Int.floor_lt.mpr
    push_cast
    linarith
  rw [abs_le]
  omega

/-- One channel of the round trip: re-encoding a linearized integer channel
perturbed by at most the matrix inversion error rounds back to within one of
the original channel value. -/
lemma round_channel (c : ℤ) (hc0 : 0 ≤ c) (hc255 : c ≤ 255) (d : ℝ)
    (hd : |d| ≤ 0.00000023) :
    |lrgb2rgb (rgb2lrgb (c : ℝ) + d) - c| ≤ 1 := by
  have hcr0 : (0:ℝ) ≤ (c:ℝ) := by exact_mod_cast hc0
  have hcr255 : (c:ℝ) ≤ 255 := by exact_mod_cast hc255
  obtain ⟨hdl, hdu⟩ := abs_le.mp hd
  by_cases hc10 : c ≤ 10
  · have hcr10 : (c:ℝ) ≤ 10 := by exact_mod_cast hc10
    have hx2 : (c:ℝ) / 255 ≤ 0.04045 := by linarith
    have hlin : rgb2lrgb (c:ℝ) = (c:ℝ) / 255 / 12.92 := by
      unfold rgb2lrgb
      rw [if_pos hx2]
    have hdd : rgb2lrgb (c:ℝ) ≤ 10 / 3294.6 := by
      rw [hlin, div_div, show (255:ℝ) * 12.92 = 3294.6 by norm_num]
      gcongr
    have harg : rgb2lrgb (c:ℝ) + d ≤ 0.0031308 := by
      nlinarith [hdd]
    unfold lrgb2rgb
    rw [if_pos harg]
    apply round_abs_le
    rw [hlin]
    have hval : (255:ℝ) * (12.92 * ((c:ℝ) / 255 / 12.92 + d)) - c =
        255 * 12.92 * d := by
      ring
    rw [abs_le]
    constructor <;> nlinarith [hval]
  · have hc11 : (11:ℤ) ≤ c := by omega
    have hcr11 : (11:ℝ) ≤ (c:ℝ) := by exact_mod_cast hc11
    have hx2 : ¬ ((c:ℝ) / 255 ≤ 0.04045) := by
      push_neg
      nlinarith
    have hlin : rgb2lrgb (c:ℝ) = (((c:ℝ) / 255 + 0.055) / 1.055) ^ (2.4:ℝ) := by
      unfold rgb2lrgb
      rw [if_neg hx2]
    set B := ((c:ℝ) / 255 + 0.055) / 1.055 with hB
    have hB0 : (0:ℝ) ≤ B := by
      rw [hB]
      positivity
    have hB093 : (0.093:ℝ) ≤ B := by
      rw [hB]
      rw [le_div_iff₀ (by norm_num : (0:ℝ) < 1.055)]
      nlinarith
    have hB1 : B ≤ 1 := by
      rw [hB]
      rw [div_le_one (by norm_num : (0:ℝ) < 1.055)]
      nlinarith
    have hlin0032 : (0.0032:ℝ) ≤ rgb2lrgb (c:ℝ) := by
      rw [hlin]
      apply le_rpow_24 _ _ (by norm_num) hB0
      calc (0.0032:ℝ) ^ (5:ℕ) ≤ (0.093:ℝ) ^ (12:ℕ) := by norm_num
        _ ≤ B ^ (12:ℕ) := pow_le_pow_left₀ (by norm_num) hB093 12
    have hlin1 : rgb2lrgb (c:ℝ) ≤ 1 :=
      rgb2lrgb_le_one _ hcr0 hcr255
    have harg : ¬ (rgb2lrgb (c:ℝ) + d ≤ 0.0031308) := by
      push_neg
      linarith
    have harg0 : (0:ℝ) ≤ rgb2lrgb (c:ℝ) + d := by linarith
    unfold lrgb2rgb
    rw [if_neg harg]
    apply round_abs_le
    have hlinp : (rgb2lrgb (c:ℝ)) ^ ((1:ℝ)/2.4) = B := by
      rw [hlin, ← Real.rpow_mul hB0,
        show (2.4:ℝ) * (1/2.4) = 1 by norm_num, Real.rpow_one]
    have hcval : (255:ℝ) * (1.055 * B - 0.055) = c := by
      rw [hB]
      field_simp
      ring
    have hsubd : |(rgb2lrgb (c:ℝ) + d) ^ ((1:ℝ)/2.4) -
        (rgb2lrgb (c:ℝ)) ^ ((1:ℝ)/2.4)| ≤ |d| ^ ((1:ℝ)/2.4) := by
      have := rpow_sub_abs_le (rgb2lrgb (c:ℝ) + d) (rgb2lrgb (c:ℝ)) harg0
        (by linarith)
      rwa [show rgb2lrgb (c:ℝ) + d - rgb2lrgb (c:ℝ) = d by ring] at this
    have hdp : |d| ^ ((1:ℝ)/2.4) ≤ 0.0018 := by
      apply rpow_inv_le _ _ (abs_nonneg d) (by norm_num)
      calc |d| ^ (5:ℕ) ≤ (0.00000023:ℝ) ^ (5:ℕ) :=
            pow_le_pow_left₀ (abs_nonneg d) hd 5
        _ ≤ (0.0018:ℝ) ^ (12:ℕ) := by norm_num
    obtain ⟨hsl, hsu⟩ := abs_le.mp hsubd
    rw [hlinp] at hsl hsu
    rw [abs_le]
    constructor <;> nlinarith [hdp, hcval]

set_option maxHeartbeats 2000000 in
/-- C3: a color with integer channels in 0..255 survives the Lab round trip
to within one per channel: the Lab nonlinearity inverts exactly, the only
error is the rounded inverse matrix, and it is far too small to move the
rounding by more than one step. -/
theorem labToRgb_rgbToLab_roundtrip (r g b : ℤ)
    (hr0 : 0 ≤ r) (hr255 : r ≤ 255) (hg0 : 0 ≤ g) (hg255 : g ≤ 255)
    (hb0 : 0 ≤ b) (hb255 : b ≤ 255) :
    |(labToRgb (rgbToLab ⟨(r : ℝ), (g : ℝ), (b : ℝ)⟩)).1 - r| ≤ 1 ∧
    |(labToRgb (rgbToLab ⟨(r : ℝ), (g : ℝ), (b : ℝ)⟩)).2.1 - g| ≤ 1 ∧
    |(labToRgb (rgbToLab ⟨(r : ℝ), (g : ℝ), (b : ℝ)⟩)).2.2 - b| ≤ 1 := by
  have hr0' : (0:ℝ) ≤ (r:ℝ) := by exact_mod_cast hr0
  have hr255' : (r:ℝ) ≤ 255 := by exact_mod_cast hr255
  have hg0' : (0:ℝ) ≤ (g:ℝ) := by exact_mod_cast hg0
  have hg255' : (g:ℝ) ≤ 255 := by exact_mod_cast hg255
  have hb0' : (0:ℝ) ≤ (b:ℝ) := by exact_mod_cast hb0
  have hb255' : (b:ℝ) ≤ 255 := by exact_mod_cast hb255
  set lrv := rgb2lrgb (r:ℝ) with hlrv
  set lgv := rgb2lrgb (g:ℝ) with hlgv
  set lbv := rgb2lrgb (b:ℝ) with hlbv
  have h0r : 0 ≤ lrv := rgb2lrgb_nonneg _ hr0'
  have h1r : lrv ≤ 1 := rgb2lrgb_le_one _ hr0' hr255'
  have h0g : 0 ≤ lgv := rgb2lrgb_nonneg _ hg0'
  have h1g : lgv ≤ 1 := rgb2lrgb_le_one _ hg0' hg255'
  have h0b : 0 ≤ lbv := rgb2lrgb_nonneg _ hb0'
  have h1b : lbv ≤ 1 := rgb2lrgb_le_one _ hb0' hb255'
  set Xs := 0.4360747 * lrv + 0.3850649 * lgv + 0.1430804 * lbv with hXs
  set Ys := 0.2225045 * lrv + 0.7168786 * lgv + 0.0606169 * lbv with hYs
  set Zs := 0.0139322 * lrv + 0.0971045 * lgv + 0.7141733 * lbv with hZs
  have hdecode : labToRgb (rgbToLab ⟨(r : ℝ), (g : ℝ), (b : ℝ)⟩) =
      (lrgb2rgb (3.1338561 * Xs - 1.6168667 * Ys - 0.4906146 * Zs),
       lrgb2rgb (-0.9787684 * Xs + 1.9161415 * Ys + 0.033454 * Zs),
       lrgb2rgb (0.0719453 * Xs - 0.2289914 * Ys + 1.4052427 * Zs)) := by
    simp only [rgbToLab, labToRgb]
    rw [← hlrv, ← hlgv, ← hlbv, ← hXs, ← hYs, ← hZs]
    have hbase1 : ∀ u v : ℝ, (116 * u - 16 + 16) / 116 + 500 * (v - u) / 500 = v := by
      intro u v
      ring
    have hbase3 : ∀ u v : ℝ, (116 * u - 16 + 16) / 116 - 200 * (u - v) / 200 = v := by
      intro u v
      ring
    have hbase2 : ∀ u : ℝ, (116 * u - 16 + 16) / 116 = u := by
      intro u
      ring
    rw [hbase1, hbase3, hbase2]
    by_cases hgray : lrv = lgv ∧ lgv = lbv
    · rw [if_pos hgray, if_pos hgray]
      simp only [lab2xyz_xyz2lab]
      obtain ⟨he1, he2⟩ := hgray
      rw [hXs, hYs, hZs, he1, he2]
      simp only [Prod.mk.injEq]
      refine ⟨?_, ?_, ?_⟩ <;> · congr 1; ring
    · rw [if_neg hgray, if_neg hgray]
      simp only [lab2xyz_xyz2lab]
      simp only [Prod.mk.injEq]
      refine ⟨?_, ?_, ?_⟩ <;> · congr 1; ring
  rw [hdecode]
  have hbr : |(3.1338561 * Xs - 1.6168667 * Ys - 0.4906146 * Zs) - lrv| ≤
      0.00000023 := by
    rw [hXs, hYs, hZs, abs_le]
    constructor <;> nlinarith [h0r, h1r, h0g, h1g, h0b, h1b]
  have hbg : |(-0.9787684 * Xs + 1.9161415 * Ys + 0.033454 * Zs) - lgv| ≤
      0.00000023 := by
    rw [hXs, hYs, hZs, abs_le]
    constructor <;> nlinarith [h0r, h1r, h0g, h1g, h0b, h1b]
  have hbb : |(0.0719453 * Xs - 0.2289914 * Ys + 1.4052427 * Zs) - lbv| ≤
      0.00000023 := by
    rw [hXs, hYs, hZs, abs_le]
    constructor <;> nlinarith [h0r, h1r, h0g, h1g, h0b, h1b]
  refine ⟨?_, ?_, ?_⟩
  · have h := round_channel r hr0 hr255
      ((3.1338561 * Xs - 1.6168667 * Ys - 0.4906146 * Zs) - lrv) hbr
    rw [← hlrv] at h
    rw [show lrv + ((3.1338561 * Xs - 1.6168667 * Ys - 0.4906146 * Zs) - lrv) =
        3.1338561 * Xs - 1.6168667 * Ys - 0.4906146 * Zs by ring] at h
    exact h
  · have h := round_channel g hg0 hg255
      ((-0.9787684 * Xs + 1.9161415 * Ys + 0.033454 * Zs) - lgv) hbg
    rw [← hlgv] at h
    rw [show lgv + ((-0.9787684 * Xs + 1.9161415 * Ys + 0.033454 * Zs) - lgv) =
        -0.9787684 * Xs + 1.9161415 * Ys + 0.033454 * Zs by ring] at h
    exact h
  · have h := round_channel b hb0 hb255
      ((0.0719453 * Xs - 0.2289914 * Ys + 1.4052427 * Zs) - lbv) hbb
    rw [← hlbv] at h
    rw [show lbv + ((0.0719453 * Xs - 0.2289914 * Ys + 1.4052427 * Zs) - lbv) =
        0.0719453 * Xs - 0.2289914 * Ys + 1.4052427 * Zs by ring] at h
    exact h

/-- Witness for C3 at the color with all channels 17. -/
theorem labToRgb_rgbToLab_roundtrip_witness :
    ((0:ℤ) ≤ 17 ∧ (17:ℤ) ≤ 255) ∧
    (|(labToRgb (rgbToLab ⟨((17:ℤ) : ℝ), ((17:ℤ) : ℝ), ((17:ℤ) : ℝ)⟩)).1 - 17| ≤ 1 ∧
     |(labToRgb (rgbToLab ⟨((17:ℤ) : ℝ), ((17:ℤ) : ℝ), ((17:ℤ) : ℝ)⟩)).2.1 - 17| ≤ 1 ∧
     |(labToRgb (rgbToLab ⟨((17:ℤ) : ℝ), ((17:ℤ) : ℝ), ((17:ℤ) : ℝ)⟩)).2.2 - 17| ≤ 1) :=
  ⟨⟨by decide, by decide⟩,
   labToRgb_rgbToLab_roundtrip 17 17 17 (by decide) (by decide) (by decide)
     (by decide) (by decide) (by decide)⟩
